import Mathlib

/-!
# Verification of the style-rule engine (tab detection and blank-line-run detection)

A shallow embedding of the two rules of this repository:

* `no-tabs` (src/packages/eslint-plugin-js/rules/no-tabs/no-tabs.ts): per line,
  a regex exec loop over `/\t+/gu` finds maximal runs of tab characters and
  reports one diagnostic per run, optionally suppressing runs that sit fully
  inside leading indentation.
* `no-multiple-empty-lines` (the unnamed source file): bounds the length of
  blank-line runs against three thresholds (`max`, `maxEOF`, `maxBOF`),
  reporting a located diagnostic with a removal fix for each excessive run.

Source text is modelled as `List Char`; lines are obtained by splitting on the
newline character (the line-terminator handling of the source engine's line
decomposition).  Offsets count characters.
-/

/-- Line decomposition of raw text: split on `'\n'`.  Mirrors the engine's
`sourceCode.lines` / `sourceCode.getLines()` (always at least one line; a
trailing terminator yields a final empty line). -/
def splitLines : List Char → List (List Char)
  | [] => [[]]
  | c :: rest =>
    match splitLines rest with
    | [] => [[]]
    | l :: ls => if c = '\n' then [] :: l :: ls else (c :: l) :: ls

/-- Join lines back with `'\n'` separators (inverse of `splitLines`). -/
def joinLines : List (List Char) → List Char
  | [] => []
  | [l] => l
  | l :: ls => l ++ '\n' :: joinLines ls

/-- Join lines, terminating every line with `'\n'` (used to describe the text
before a given line start). -/
def joinNl : List (List Char) → List Char
  | [] => []
  | l :: ls => l ++ '\n' :: joinNl ls

/-- `sourceCode.getIndexFromLoc({line: k, column: 0})`: character offset of the
start of 1-based line `k`, over the line decomposition `S` of the text. -/
def lineStartIdx (S : List (List Char)) (k : Nat) : Nat :=
  ((S.take (k - 1)).map (fun l => l.length + 1)).sum

/-- `fixer.removeRange([s, e])`: delete the character range `[s, e)`. -/
def removeRange (text : List Char) (s e : Nat) : List Char :=
  text.take s ++ text.drop e

/-- The test `anyNonWhitespaceRegex.test xs` (regex `/\S/u`): does the
character list contain a non-whitespace character?  Also the truthiness of
`line.trim()` used by the blank-line rule. -/
def anyNonWhitespace (l : List Char) : Bool :=
  l.any (fun c => !c.isWhitespace)

/-! ## Rule `no-tabs` -/

/-- Length of the leading run of tabs (the length of a `/\t+/` match starting
at the head). -/
def leadTabs : List Char → Nat
  | [] => 0
  | c :: rest => if c = '\t' then leadTabs rest + 1 else 0

/-- Scan a suffix of the line (whose first character has index `i` in the full
line) for the next `/\t+/` match: the regex cursor search.  Returns the match
offset and length, as `tabRegex.exec` does. -/
def findRunSuffix : List Char → Nat → Option (Nat × Nat)
  | [], _ => none
  | c :: rest, i =>
    if c = '\t' then some (i, leadTabs (c :: rest)) else findRunSuffix rest (i + 1)

/-- One `tabRegex.exec(line)` step with `lastIndex = pos`: the next maximal tab
run at offset `≥ pos`. -/
def findRun (line : List Char) (pos : Nat) : Option (Nat × Nat) :=
  findRunSuffix (line.drop pos) pos

/-- The `while ((match = tabRegex.exec(line)) !== null)` loop: repeatedly take
the next match and advance the cursor past it.  `fuel` bounds the iteration
count; `line.length + 1` iterations always suffice (proved below), so the
fueled function computes the loop's full output. -/
def execScan : Nat → List Char → Nat → List (Nat × Nat)
  | 0, _, _ => []
  | fuel + 1, line, pos =>
    match findRun line pos with
    | none => []
    | some (s, len) => (s, len) :: execScan fuel line (s + len)

/-- All `/\t+/g` matches of a line: `(offset, length)` of each maximal tab
run, left to right. -/
def tabRuns (line : List Char) : List (Nat × Nat) :=
  execScan (line.length + 1) line 0

/-- A diagnostic of the `no-tabs` rule: 1-based line, 0-based start column,
0-based exclusive end column (`match.index` / `match.index + match[0].length`). -/
structure TabReport where
  line : Nat
  startCol : Nat
  endCol : Nat
deriving DecidableEq, Repr

/-- Diagnostics for one line (1-based number `ln`): one per tab run, except
that with `allowIndentationTabs` a run whose preceding characters
`line.slice(0, match.index)` hold no non-whitespace character is skipped. -/
def tabReportsLine (allow : Bool) (ln : Nat) (line : List Char) : List TabReport :=
  (tabRuns line).filterMap fun r =>
    if allow && !anyNonWhitespace (line.take r.1) then none
    else some ⟨ln, r.1, r.1 + r.2⟩

/-- `sourceCode.getLines().forEach((line, index) => ...)`: fold over all lines
carrying the 1-based line number. -/
def noTabsLines (allow : Bool) : Nat → List (List Char) → List TabReport
  | _, [] => []
  | k, l :: rest => tabReportsLine allow k l ++ noTabsLines allow (k + 1) rest

/-- The `no-tabs` rule: all diagnostics for a source text under the
`allowIndentationTabs` option. -/
def noTabs (text : List Char) (allow : Bool) : List TabReport :=
  noTabsLines allow 1 (splitLines text)

/-- Specification predicate: `(s, len)` is a maximal run of consecutive tab
characters of `line` — nonempty, all tabs, not extendable on either side. -/
def maxTabRun (line : List Char) (s len : Nat) : Prop :=
  1 ≤ len ∧ s + len ≤ line.length ∧
  (∀ j < len, line.get? (s + j) = some '\t') ∧
  (s = 0 ∨ ¬ line.get? (s - 1) = some '\t') ∧
  ¬ line.get? (s + len) = some '\t'

instance (line : List Char) (s len : Nat) : Decidable (maxTabRun line s len) := by
  unfold maxTabRun; infer_instance

/-! ## Rule `no-multiple-empty-lines` -/

/-- The three message ids of the blank-line rule. -/
inductive MessageId where
  | blankBeginningOfFile
  | blankEndOfFile
  | consecutiveBlank
deriving DecidableEq, Repr

/-- A diagnostic of the blank-line rule: the reported location span (columns
are always 0 in the source) and the removal range of the attached fix. -/
structure NmelReport where
  messageId : MessageId
  startLine : Nat
  endLine : Nat
  fixStart : Nat
  fixEnd : Nat
deriving DecidableEq, Repr

/-- A validated options object for the blank-line rule: `max` is present
(schema: `required: ['max']`), `maxEOF` and `maxBOF` optional.  All three are
non-negative integers (schema: `minimum: 0`). -/
structure NmelOptions where
  max : Nat
  maxEOF : Option Nat
  maxBOF : Option Nat
deriving DecidableEq, Repr

/-- A raw (unvalidated) options object: each of the three properties may be
absent, and when present is an arbitrary integer. -/
structure NmelRawOptions where
  rawMax : Option Int
  rawMaxEOF : Option Int
  rawMaxBOF : Option Int
deriving DecidableEq, Repr

/-- The rule's declared JSON schema, as a predicate on a raw options object:
`max` is required, each supplied value must be an integer `≥ 0`
(`minimum: 0`). -/
def nmelSchemaAccepts (o : NmelRawOptions) : Bool :=
  (match o.rawMax with | some v => decide (0 ≤ v) | none => false) &&
  (match o.rawMaxEOF with | some v => decide (0 ≤ v) | none => true) &&
  (match o.rawMaxBOF with | some v => decide (0 ≤ v) | none => true)

/-- The condition `line.trim() || templateLiteralLines.has(k)` deciding that
1-based line `k` with content `l` is pushed onto `nonEmptyLineNumbers`. -/
def isNonEmptyLine (tll : List Nat) (k : Nat) (l : List Char) : Bool :=
  anyNonWhitespace l || tll.contains k

/-- The `reduce` building `nonEmptyLineNumbers`: 1-based numbers of the lines
that are non-blank or excluded as template-literal lines.  `k` is the number
of the first line of `ls`. -/
def nonEmptyNums (tll : List Nat) : Nat → List (List Char) → List Nat
  | _, [] => []
  | k, l :: rest =>
    (if isNonEmptyLine tll k l then [k] else []) ++ nonEmptyNums tll (k + 1) rest

/-- The template-literal visitor: for every quasi spanning lines
`[startLine, endLine]`, the lines `startLine ≤ l < endLine` are added to
`templateLiteralLines`. -/
def quasiLines (quasis : List (Nat × Nat)) : List Nat :=
  quasis.flatMap (fun se => List.range' se.1 (se.2 - se.1))

/-- The `messageId` selection of the source's reduce body: beginning-of-file
when `lastLineNumber` is 0, end-of-file when the marker is the sentinel
`allLines.length + 1`, interior otherwise. -/
def runClass (n prev q : Nat) : MessageId :=
  if prev = 0 then .blankBeginningOfFile
  else if q = n + 1 then .blankEndOfFile
  else .consecutiveBlank

/-- The `maxAllowed` selection of the source's reduce body, the same if-chain
as the `messageId` selection. -/
def runMaxAllowed (n mB mI mE prev q : Nat) : Nat :=
  if prev = 0 then mB
  else if q = n + 1 then mE
  else mI

/-- The final `reduce` over the marker sequence, from the source: `prev` is
`lastLineNumber`, each `q` the next non-blank marker.  `n` is the checkable
line count (`allLines.length`), `S` the full line decomposition used by
`getIndexFromLoc`, `textLen` the raw text length. -/
def nmelGo (n mB mI mE : Nat) (S : List (List Char)) (textLen : Nat) :
    Nat → List Nat → List NmelReport
  | _, [] => []
  | prev, q :: rest =>
    (if q - prev - 1 > runMaxAllowed n mB mI mE prev q then
      [{ messageId := runClass n prev q
         startLine := prev + runMaxAllowed n mB mI mE prev q + 1
         endLine := q
         fixStart := lineStartIdx S (prev + 1)
         fixEnd := if q - runMaxAllowed n mB mI mE prev q ≤ n then
             lineStartIdx S (q - runMaxAllowed n mB mI mE prev q)
           else textLen }]
     else []) ++ nmelGo n mB mI mE S textLen q rest

/-- `allLines`: the engine's lines with one trailing empty line swallowed
(`lines[lines.length - 1] === '' ? lines.slice(0, -1) : lines`). -/
def nmelAllLines (text : List Char) : List (List Char) :=
  let S := splitLines text
  if S.getLast? = some [] then S.dropLast else S

/-- The checkable line count `allLines.length`. -/
def nmelTotal (text : List Char) : Nat :=
  (nmelAllLines text).length

/-- The full marker sequence: non-blank line numbers followed by the sentinel
`allLines.length + 1`. -/
def nmelMarkers (text : List Char) (tll : List Nat) : List Nat :=
  nonEmptyNums tll 1 (nmelAllLines text) ++ [nmelTotal text + 1]

/-- The blank-line rule's scan with resolved thresholds `mI` (interior),
`mE` (end of file), `mB` (beginning of file) and the accumulated
template-literal line set `tll`. -/
def nmelScan (text : List Char) (mI mE mB : Nat) (tll : List Nat) : List NmelReport :=
  nmelGo (nmelTotal text) mB mI mE (splitLines text) text.length 0 (nmelMarkers text tll)

/-- The rule's `create` option handling: `max` defaults to 2 when no options
object is supplied; `maxEOF` / `maxBOF` default to the resolved `max`. -/
def noMultipleEmptyLines (text : List Char) (options : List NmelOptions)
    (tll : List Nat) : List NmelReport :=
  match options.head? with
  | some o => nmelScan text o.max (o.maxEOF.getD o.max) (o.maxBOF.getD o.max) tll
  | none => nmelScan text 2 2 2 tll

/-- The threshold a report with the given message id was judged against. -/
def thresholdFor (mI mE mB : Nat) : MessageId → Nat
  | .blankBeginningOfFile => mB
  | .blankEndOfFile => mE
  | .consecutiveBlank => mI

/-- Template-literal line numbers of the corrected text after removing the
`d` lines `p+1 … p+d`: lines `≤ p` keep their number, lines `> p+d` shift
down by `d` (lines strictly inside a removed blank run are never
template-literal lines). -/
def shiftTll (tll : List Nat) (p d : Nat) : List Nat :=
  tll.filterMap fun l =>
    if l ≤ p then some l else if p + d < l then some (l - d) else none

/-- The consecutive pairs `(previous, current)` of the marker walk, starting
from `prev`. -/
def specPairs : Nat → List Nat → List (Nat × Nat)
  | _, [] => []
  | prev, q :: rest => (prev, q) :: specPairs q rest

/-- Specification-side description of the blank-line scan (the spec's fold
over consecutive marker pairs from `previous = 0`): a violation is recorded
exactly for the pairs whose gap minus one exceeds the threshold selected by
the run's classification, and is reported with that classification's
message. -/
def specViolations (n mI mE mB : Nat) (markers : List Nat) : List MessageId :=
  ((specPairs 0 markers).filter
    (fun pq => decide (runMaxAllowed n mB mI mE pq.1 pq.2 < pq.2 - pq.1 - 1))).map
    (fun pq => runClass n pq.1 pq.2)

/-! ## Lemmas: the tab-run scanner -/

theorem dropGet {α : Type} (l : List α) (i j : Nat) :
    (l.drop i).get? j = l.get? (i + j) := by
  induction l generalizing i with
  | nil => simp
  | cons c rest ih =>
    cases i with
    | zero => simp
    | succ i' =>
      have : i' + 1 + j = (i' + j) + 1 := by omega
      simp only [List.drop_succ_cons, this, List.get?_cons_succ]
      exact ih i'

theorem leadTabs_le (l : List Char) : leadTabs l ≤ l.length := by
  induction l with
  | nil => simp [leadTabs]
  | cons c rest ih =>
    by_cases h : c = '\t' <;> simp [leadTabs, h] <;> omega

theorem leadTabs_tab (l : List Char) : ∀ j < leadTabs l, l.get? j = some '\t' := by
  induction l with
  | nil => simp [leadTabs]
  | cons c rest ih =>
    intro j hj
    by_cases h : c = '\t'
    · simp only [leadTabs, if_pos h] at hj
      cases j with
      | zero => simp [h]
      | succ j' => simpa using ih j' (by omega)
    · simp [leadTabs, h] at hj

theorem leadTabs_stop (l : List Char) : ¬ l.get? (leadTabs l) = some '\t' := by
  induction l with
  | nil => simp
  | cons c rest ih =>
    by_cases h : c = '\t'
    · simpa [leadTabs, h] using ih
    · simpa [leadTabs, h] using h

theorem leadTabs_pos {l : List Char} (h : l.get? 0 = some '\t') : 1 ≤ leadTabs l := by
  cases l with
  | nil => simp at h
  | cons c rest =>
    simp only [List.get?_cons_zero, Option.some_inj] at h
    simp [leadTabs, h]

theorem findRunSuffix_none {l : List Char} {i : Nat}
    (h : findRunSuffix l i = none) : ∀ j, ¬ l.get? j = some '\t' := by
  induction l generalizing i with
  | nil => intro j; simp
  | cons c rest ih =>
    by_cases hc : c = '\t'
    · simp [findRunSuffix, hc] at h
    · simp only [findRunSuffix, if_neg hc] at h
      intro j
      cases j with
      | zero => simpa using hc
      | succ j' => simpa using ih h j'

theorem findRunSuffix_some {l : List Char} {i s len : Nat}
    (h : findRunSuffix l i = some (s, len)) :
    i ≤ s ∧ s - i < l.length ∧ (∀ j < s - i, ¬ l.get? j = some '\t')
    ∧ len = leadTabs (l.drop (s - i)) ∧ l.get? (s - i) = some '\t' := by
  induction l generalizing i with
  | nil => simp [findRunSuffix] at h
  | cons c rest ih =>
    by_cases hc : c = '\t'
    · simp only [findRunSuffix, if_pos hc, Option.some_inj, Prod.mk.injEq] at h
      obtain ⟨rfl, rfl⟩ := h
      refine ⟨le_refl _, by simp, by omega, by simp, by simp [hc]⟩
    · simp only [findRunSuffix, if_neg hc] at h
      obtain ⟨hi, hlt, hnone, hlen, htab⟩ := ih h
      have hk : s - i = (s - (i + 1)) + 1 := by omega
      refine ⟨by omega, by simp; omega, ?_, ?_, ?_⟩
      · intro j hj
        cases j with
        | zero => simpa using hc
        | succ j' => simpa using hnone j' (by omega)
      · rw [hk]; simpa using hlen
      · rw [hk]; simpa using htab

theorem findRun_none {line : List Char} {pos : Nat}
    (h : findRun line pos = none) :
    ∀ j, pos ≤ j → ¬ line.get? j = some '\t' := by
  intro j hj
  have := findRunSuffix_none (l := line.drop pos) h (j - pos)
  rwa [dropGet, Nat.add_sub_cancel' hj] at this

theorem findRun_some {line : List Char} {pos s len : Nat}
    (h : findRun line pos = some (s, len)) :
    pos ≤ s ∧ 1 ≤ len ∧ s + len ≤ line.length
    ∧ (∀ j, pos ≤ j → j < s → ¬ line.get? j = some '\t')
    ∧ (∀ j < len, line.get? (s + j) = some '\t')
    ∧ ¬ line.get? (s + len) = some '\t' := by
  obtain ⟨his, hlt, hnone, hlen, htab⟩ := findRunSuffix_some (l := line.drop pos) h
  have hps : pos + (s - pos) = s := by omega
  have hdd : (line.drop pos).drop (s - pos) = line.drop s := by
    rw [List.drop_drop, hps]
  have htab' : line.get? s = some '\t' := by
    have := htab; rwa [dropGet, hps] at this
  have hslt : s < line.length := by
    have := hlt; rw [List.length_drop] at this; omega
  have hlen' : len = leadTabs (line.drop s) := by rw [hlen, hdd]
  have h1 : 1 ≤ len := by
    rw [hlen']
    exact leadTabs_pos (by rw [dropGet, Nat.add_zero]; exact htab')
  have hle : len ≤ line.length - s := by
    rw [hlen']
    have := leadTabs_le (line.drop s)
    rwa [List.length_drop] at this
  refine ⟨his, h1, by omega, ?_, ?_, ?_⟩
  · intro j hj1 hj2
    have := hnone (j - pos) (by omega)
    rwa [dropGet, Nat.add_sub_cancel' hj1] at this
  · intro j hj
    have := leadTabs_tab (line.drop s) j (by rw [← hlen']; exact hj)
    rwa [dropGet] at this
  · have := leadTabs_stop (line.drop s)
    rw [← hlen', dropGet] at this
    exact this

theorem findRun_none_of_past {line : List Char} {pos : Nat}
    (h : line.length ≤ pos) : findRun line pos = none := by
  unfold findRun
  rw [List.drop_eq_nil_of_le h]
  rfl

theorem execScan_mem_ge {line : List Char} :
    ∀ {fuel pos : Nat} {r : Nat × Nat}, r ∈ execScan fuel line pos → pos ≤ r.1 := by
  intro fuel
  induction fuel with
  | zero => intro pos r h; simp [execScan] at h
  | succ fuel ih =>
    intro pos r h
    unfold execScan at h
    cases hf : findRun line pos with
    | none => rw [hf] at h; simp at h
    | some m =>
      obtain ⟨s, len⟩ := m
      rw [hf] at h
      rcases List.mem_cons.mp h with rfl | hmem
      · exact (findRun_some hf).1
      · have h1 := (findRun_some hf).1
        have := ih hmem
        omega

theorem execScan_len_pos {line : List Char} :
    ∀ {fuel pos : Nat} {r : Nat × Nat}, r ∈ execScan fuel line pos → 1 ≤ r.2 := by
  intro fuel
  induction fuel with
  | zero => intro pos r h; simp [execScan] at h
  | succ fuel ih =>
    intro pos r h
    unfold execScan at h
    cases hf : findRun line pos with
    | none => rw [hf] at h; simp at h
    | some m =>
      obtain ⟨s, len⟩ := m
      rw [hf] at h
      rcases List.mem_cons.mp h with rfl | hmem
      · exact (findRun_some hf).2.1
      · exact ih hmem

theorem execScan_pairwise (line : List Char) :
    ∀ (fuel pos : Nat),
      (execScan fuel line pos).Pairwise (fun a b => a.1 + a.2 ≤ b.1) := by
  intro fuel
  induction fuel with
  | zero => intro pos; simp [execScan]
  | succ fuel ih =>
    intro pos
    unfold execScan
    cases hf : findRun line pos with
    | none => simp
    | some m =>
      obtain ⟨s, len⟩ := m
      refine List.Pairwise.cons ?_ (ih (s + len))
      intro b hb
      exact execScan_mem_ge hb

theorem execScan_length_le {line : List Char} :
    ∀ {fuel pos : Nat}, (execScan fuel line pos).length ≤ line.length + 1 - pos := by
  intro fuel
  induction fuel with
  | zero => intro pos; simp [execScan]
  | succ fuel ih =>
    intro pos
    unfold execScan
    cases hf : findRun line pos with
    | none => simp
    | some m =>
      obtain ⟨s, len⟩ := m
      obtain ⟨h1, h2, h3, -⟩ := findRun_some hf
      have := @ih (s + len)
      simp only [List.length_cons]
      omega

theorem execScan_fuel {line : List Char} :
    ∀ {fuel₁ fuel₂ pos : Nat}, line.length + 1 - pos ≤ fuel₁ →
      line.length + 1 - pos ≤ fuel₂ →
      execScan fuel₁ line pos = execScan fuel₂ line pos := by
  intro fuel₁
  induction fuel₁ with
  | zero =>
    intro fuel₂ pos h1 h2
    have hpast : line.length ≤ pos := by omega
    cases fuel₂ with
    | zero => rfl
    | succ f =>
      show execScan 0 line pos = execScan (f + 1) line pos
      unfold execScan
      rw [findRun_none_of_past hpast]
  | succ fuel ih =>
    intro fuel₂ pos h1 h2
    cases fuel₂ with
    | zero =>
      have hpast : line.length ≤ pos := by omega
      show execScan (fuel + 1) line pos = execScan 0 line pos
      unfold execScan
      rw [findRun_none_of_past hpast]
    | succ f =>
      show execScan (fuel + 1) line pos = execScan (f + 1) line pos
      unfold execScan
      cases hf : findRun line pos with
      | none => rfl
      | some m =>
        obtain ⟨s, len⟩ := m
        obtain ⟨hs, hlen, hsl, -⟩ := findRun_some hf
        have : execScan fuel line (s + len) = execScan f line (s + len) :=
          ih (by omega) (by omega)
        show (s, len) :: execScan fuel line (s + len)
          = (s, len) :: execScan f line (s + len)
        rw [this]

theorem execScan_sound {line : List Char} :
    ∀ {fuel pos s len : Nat}, (pos = 0 ∨ ¬ line.get? pos = some '\t') →
      (s, len) ∈ execScan fuel line pos → maxTabRun line s len := by
  intro fuel
  induction fuel with
  | zero => intro pos s len _ h; simp [execScan] at h
  | succ fuel ih =>
    intro pos s len hinv h
    unfold execScan at h
    cases hf : findRun line pos with
    | none => rw [hf] at h; simp at h
    | some m =>
      obtain ⟨f, flen⟩ := m
      rw [hf] at h
      obtain ⟨hpf, hf1, hfl, hgap, hrun, hstop⟩ := findRun_some hf
      rcases List.mem_cons.mp h with heq | hmem
      · obtain ⟨rfl, rfl⟩ := Prod.mk.injEq .. ▸ heq
        refine ⟨hf1, hfl, hrun, ?_, hstop⟩
        by_cases hf0 : s = 0
        · exact Or.inl hf0
        · refine Or.inr ?_
          rcases Nat.lt_or_ge pos s with hlt | hge
          · exact hgap (s - 1) (by omega) (by omega)
          · have hps : pos = s := by omega
            rcases hinv with h0 | hnt
            · omega
            · have := hrun 0 hf1
              rw [Nat.add_zero] at this
              rw [hps] at hnt
              exact absurd this hnt
      · exact ih (Or.inr hstop) hmem

theorem execScan_complete {line : List Char} :
    ∀ {fuel pos s len : Nat}, maxTabRun line s len → pos ≤ s →
      (pos = 0 ∨ ¬ line.get? pos = some '\t') →
      line.length + 1 - pos ≤ fuel → (s, len) ∈ execScan fuel line pos := by
  intro fuel
  induction fuel with
  | zero =>
    intro pos s len hmax hps _ hfuel
    obtain ⟨h1, h2, -⟩ := hmax
    omega
  | succ fuel ih =>
    intro pos s len hmax hps hinv hfuel
    obtain ⟨h1, h2, hrun, hbefore, hstop⟩ := hmax
    unfold execScan
    cases hf : findRun line pos with
    | none =>
      have := findRun_none hf s hps
      have := hrun 0 h1
      rw [Nat.add_zero] at this
      exact absurd this (findRun_none hf s hps)
    | some m =>
      obtain ⟨f, flen⟩ := m
      obtain ⟨hpf, hf1, hfl, hgap, hfrun, hfstop⟩ := findRun_some hf
      have hstab : line.get? s = some '\t' := by
        have := hrun 0 h1; rwa [Nat.add_zero] at this
      have hfs : f ≤ s := by
        by_contra hc
        exact hgap s hps (by omega) hstab
      by_cases heq : f = s
      · subst heq
        have hlen : flen = len := by
          rcases Nat.lt_trichotomy flen len with hlt | he | hgt
          · exact absurd (hrun flen hlt) hfstop
          · exact he
          · exact absurd (hfrun len hgt) hstop
        subst hlen
        exact List.mem_cons_self _ _
      · have hflt : f < s := by omega
        have hge : f + flen ≤ s := by
          by_contra hc
          have hs1 : line.get? (s - 1) = some '\t' := by
            have := hfrun (s - 1 - f) (by omega)
            have harith : f + (s - 1 - f) = s - 1 := by omega
            rwa [harith] at this
          rcases hbefore with h0 | hnt
          · omega
          · exact hnt hs1
        refine List.mem_cons_of_mem _ ?_
        exact ih ⟨h1, h2, hrun, hbefore, hstop⟩ hge (Or.inr hfstop) (by omega)

/-- The `tabRegex` exec loop of a line finds exactly the maximal tab runs. -/
theorem tabRuns_iff {line : List Char} {s len : Nat} :
    (s, len) ∈ tabRuns line ↔ maxTabRun line s len := by
  constructor
  · exact fun h => execScan_sound (Or.inl rfl) h
  · intro h
    exact execScan_complete h (Nat.zero_le _) (Or.inl rfl) (by omega)

theorem maxTabRun_len_eq {line : List Char} {s len len' : Nat}
    (h : maxTabRun line s len) (h' : maxTabRun line s len') : len = len' := by
  obtain ⟨-, -, hrun, -, hstop⟩ := h
  obtain ⟨-, -, hrun', -, hstop'⟩ := h'
  rcases Nat.lt_trichotomy len len' with hlt | he | hgt
  · exact absurd (hrun' len hlt) hstop
  · exact he
  · exact absurd (hrun len' hgt) hstop'

theorem execScan_pairwise_fst (line : List Char) :
    ∀ (fuel pos : Nat),
      (execScan fuel line pos).Pairwise (fun a b => a.1 < b.1) := by
  intro fuel
  induction fuel with
  | zero => intro pos; simp [execScan]
  | succ fuel ih =>
    intro pos
    unfold execScan
    cases hf : findRun line pos with
    | none => simp
    | some m =>
      obtain ⟨s, len⟩ := m
      refine List.Pairwise.cons ?_ (ih (s + len))
      intro b hb
      have h1 := execScan_mem_ge hb
      have h2 := (findRun_some hf).2.1
      omega

theorem tabRuns_nodup (line : List Char) : (tabRuns line).Nodup := by
  have := execScan_pairwise_fst line (line.length + 1) 0
  exact this.imp (fun h heq => by subst heq; exact absurd h (lt_irrefl _))

theorem filterMap_ite_eq_map_filter {α β : Type} (l : List α) (p : α → Bool)
    (g : α → β) :
    l.filterMap (fun r => if p r then none else some (g r))
      = (l.filter (fun r => !p r)).map g := by
  induction l with
  | nil => rfl
  | cons a l ih =>
    by_cases h : p a <;> simp [h, ih, List.filterMap_cons]

theorem tabReportsLine_false (ln : Nat) (line : List Char) :
    tabReportsLine false ln line
      = (tabRuns line).map (fun r => ⟨ln, r.1, r.1 + r.2⟩) := by
  unfold tabReportsLine
  rw [filterMap_ite_eq_map_filter]
  simp

theorem tabReportsLine_true (ln : Nat) (line : List Char) :
    tabReportsLine true ln line
      = ((tabRuns line).filter (fun r => anyNonWhitespace (line.take r.1))).map
          (fun r => ⟨ln, r.1, r.1 + r.2⟩) := by
  unfold tabReportsLine
  rw [filterMap_ite_eq_map_filter]
  simp

theorem mem_tabReportsLine {allow : Bool} {ln : Nat} {line : List Char}
    {rep : TabReport} :
    rep ∈ tabReportsLine allow ln line ↔
      ∃ r, r ∈ tabRuns line
        ∧ (allow && !anyNonWhitespace (line.take r.1)) = false
        ∧ rep = ⟨ln, r.1, r.1 + r.2⟩ := by
  simp only [tabReportsLine, List.mem_filterMap]
  constructor
  · rintro ⟨r, hr, heq⟩
    by_cases hc : (allow && !anyNonWhitespace (line.take r.1)) = true
    · rw [if_pos hc] at heq; exact absurd heq (by simp)
    · rw [Bool.not_eq_true] at hc
      rw [if_neg (by simp [hc])] at heq
      exact ⟨r, hr, hc, (Option.some_inj.mp heq).symm⟩
  · rintro ⟨r, hr, hc, rfl⟩
    exact ⟨r, hr, by rw [if_neg (by simp [hc])]⟩

theorem noTabsLines_length_false :
    ∀ (k : Nat) (ls : List (List Char)),
      (noTabsLines false k ls).length
        = (ls.map (fun l => (tabRuns l).length)).sum := by
  intro k ls
  induction ls generalizing k with
  | nil => rfl
  | cons l rest ih =>
    simp only [noTabsLines, List.length_append, List.map_cons, List.sum_cons,
      tabReportsLine_false, List.length_map]
    rw [ih]

theorem mem_noTabsLines {allow : Bool} {rep : TabReport} :
    ∀ {k : Nat} {ls : List (List Char)},
      rep ∈ noTabsLines allow k ls ↔
        ∃ j line, ls.get? j = some line ∧ rep ∈ tabReportsLine allow (k + j) line := by
  intro k ls
  induction ls generalizing k with
  | nil => simp [noTabsLines]
  | cons l rest ih =>
    simp only [noTabsLines, List.mem_append, ih]
    constructor
    · rintro (h | ⟨j, line, hj, hmem⟩)
      · exact ⟨0, l, rfl, by simpa using h⟩
      · refine ⟨j + 1, line, by simpa using hj, ?_⟩
        have : k + 1 + j = k + (j + 1) := by omega
        rwa [this] at hmem
    · rintro ⟨j, line, hj, hmem⟩
      cases j with
      | zero =>
        left
        simp only [List.get?_cons_zero, Option.some_inj] at hj
        subst hj
        simpa using hmem
      | succ j' =>
        right
        refine ⟨j', line, by simpa using hj, ?_⟩
        have : k + (j' + 1) = k + 1 + j' := by omega
        rwa [this] at hmem

theorem tabReportsLine_line {allow : Bool} {ln : Nat} {line : List Char}
    {rep : TabReport} (h : rep ∈ tabReportsLine allow ln line) : rep.line = ln := by
  obtain ⟨r, -, -, rfl⟩ := mem_tabReportsLine.mp h
  rfl

theorem mem_noTabs {text : List Char} {allow : Bool} {rep : TabReport} :
    rep ∈ noTabs text allow ↔
      ∃ j line, (splitLines text).get? j = some line
        ∧ rep ∈ tabReportsLine allow (1 + j) line :=
  mem_noTabsLines

/-- C3: for every source text, the tab rule reports one diagnostic per maximal
tab run and never per character: the run list of each line is exactly the set
of maximal tab runs, each diagnostic of a line spans one run (from its first
column to exclusively past its last), the total diagnostic count with
`allowIndentationTabs` off is the number of maximal runs, and with it on the
runs lying fully within leading whitespace are dropped from each line's
diagnostics. -/
theorem tab_rule_one_report_per_maximal_run : ∀ (text : List Char),
    (noTabs text false).length
      = ((splitLines text).map (fun l => (tabRuns l).length)).sum
    ∧ ∀ i line, (splitLines text).get? i = some line →
        (∀ s len, ((s, len) ∈ tabRuns line ↔ maxTabRun line s len))
        ∧ tabReportsLine false (i + 1) line
            = (tabRuns line).map (fun r => ⟨i + 1, r.1, r.1 + r.2⟩)
        ∧ tabReportsLine true (i + 1) line
            = ((tabRuns line).filter
                (fun r => anyNonWhitespace (line.take r.1))).map
                (fun r => ⟨i + 1, r.1, r.1 + r.2⟩) := by
  intro text
  refine ⟨noTabsLines_length_false 1 (splitLines text), ?_⟩
  intro i line _
  exact ⟨fun s len => tabRuns_iff, tabReportsLine_false _ _, tabReportsLine_true _ _⟩

theorem tab_rule_one_report_per_maximal_run_witness :
    (splitLines "a\t\tb".data).get? 0 = some "a\t\tb".data
    ∧ ((1, 2) ∈ tabRuns "a\t\tb".data ↔ maxTabRun "a\t\tb".data 1 2) :=
  ⟨by decide,
   ((tab_rule_one_report_per_maximal_run "a\t\tb".data).2 0 "a\t\tb".data
     (by decide)).1 1 2⟩

/-- C4: with `allowIndentationTabs` on, a tab run is suppressed iff every
character preceding it on its line is whitespace; a run at column 0 is always
suppressed; a run preceded by a non-whitespace character is reported under
either option value.  In particular `"x\tfoo\n"` with the option on yields
exactly one diagnostic. -/
theorem tab_rule_indentation_suppression :
    (∀ (text : List Char) (i : Nat) (line : List Char) (s len : Nat),
      (splitLines text).get? i = some line →
      (s, len) ∈ tabRuns line →
      ((TabReport.mk (i + 1) s (s + len) ∈ noTabs text true
          ↔ anyNonWhitespace (line.take s) = true)
        ∧ (s = 0 → TabReport.mk (i + 1) s (s + len) ∉ noTabs text true)
        ∧ (anyNonWhitespace (line.take s) = true →
            ∀ b, TabReport.mk (i + 1) s (s + len) ∈ noTabs text b)))
    ∧ noTabs "x\tfoo\n".data true = [⟨1, 1, 2⟩] := by
  constructor
  · intro text i line s len hget hrun
    have hcomm : 1 + i = i + 1 := by omega
    have hmemIff : ∀ (allow : Bool),
        (allow && !anyNonWhitespace (line.take s)) = false →
        TabReport.mk (i + 1) s (s + len) ∈ noTabs text allow := by
      intro allow hcond
      refine mem_noTabs.mpr ⟨i, line, hget, ?_⟩
      rw [hcomm]
      exact mem_tabReportsLine.mpr ⟨(s, len), hrun, hcond, rfl⟩
    have hfwd : TabReport.mk (i + 1) s (s + len) ∈ noTabs text true →
        anyNonWhitespace (line.take s) = true := by
      intro hmem
      obtain ⟨j, line', hj, hmem'⟩ := mem_noTabs.mp hmem
      have hline := tabReportsLine_line hmem'
      have hji : j = i := by
        simp only [TabReport] at hline
        omega
      subst hji
      rw [hget] at hj
      obtain rfl : line' = line := (Option.some_inj.mp hj).symm
      obtain ⟨r, -, hcond, heq⟩ := mem_tabReportsLine.mp hmem'
      have hr1 : r.1 = s := by
        have := congrArg TabReport.startCol heq
        exact this.symm
      rw [hr1] at hcond
      simpa using hcond
    refine ⟨⟨hfwd, fun h => hmemIff true (by simp [h])⟩, ?_, ?_⟩
    · intro hs0 hmem
      have := hfwd hmem
      rw [hs0] at this
      simp [anyNonWhitespace] at this
    · intro hany b
      cases b with
      | false => exact hmemIff false (by simp)
      | true => exact hmemIff true (by simp [hany])
  · decide

theorem tab_rule_indentation_suppression_witness :
    (splitLines "x\tfoo".data).get? 0 = some "x\tfoo".data
    ∧ (1, 1) ∈ tabRuns "x\tfoo".data
    ∧ ∀ b, TabReport.mk 1 1 2 ∈ noTabs "x\tfoo".data b :=
  ⟨by decide, by decide,
   (tab_rule_indentation_suppression.1 "x\tfoo".data 0 "x\tfoo".data 1 1
     (by decide) (by decide)).2.2 (by decide)⟩

/-- C9: the per-line exec loop of the tab rule terminates: `line.length + 1`
iterations of fuel always suffice (more fuel never changes the result), every
matched run is nonempty, the scan position strictly advances (each later match
starts at or past the previous match's end, hence strictly right of its
start), the loop performs at most `line.length + 1` iterations, and each
maximal tab run is visited exactly once. -/
theorem tab_rule_scan_terminates :
    (∀ (line : List Char) (pos fuel : Nat),
      line.length + 1 - pos ≤ fuel →
      execScan fuel line pos = execScan (line.length + 1 - pos) line pos
      ∧ (∀ r ∈ execScan fuel line pos, 1 ≤ r.2 ∧ pos ≤ r.1)
      ∧ (execScan fuel line pos).Pairwise (fun a b => a.1 + a.2 ≤ b.1)
      ∧ (execScan fuel line pos).length ≤ line.length + 1 - pos)
    ∧ ∀ (line : List Char), (tabRuns line).Nodup
        ∧ ∀ s len, maxTabRun line s len → (s, len) ∈ tabRuns line := by
  constructor
  · intro line pos fuel hfuel
    refine ⟨execScan_fuel hfuel (le_refl _), ?_, execScan_pairwise line fuel pos,
      execScan_length_le⟩
    intro r hr
    exact ⟨execScan_len_pos hr, execScan_mem_ge hr⟩
  · intro line
    exact ⟨tabRuns_nodup line, fun s len h => tabRuns_iff.mpr h⟩

theorem tab_rule_scan_terminates_witness :
    "x\t".data.length + 1 - 0 ≤ 5
    ∧ execScan 5 "x\t".data 0 = execScan ("x\t".data.length + 1 - 0) "x\t".data 0 :=
  ⟨by decide, (tab_rule_scan_terminates.1 "x\t".data 0 5 (by decide)).1⟩

example : splitLines "a\n\nb\n".data = [['a'], [], ['b'], []] := by decide
example : tabRuns "x\t\ty\tz".data = [(1, 2), (4, 1)] := by decide
example : noTabs "x\tfoo\n".data true = [⟨1, 1, 2⟩] := by decide
example : nmelScan "a\n\n\n\n\nb\n".data 1 1 1 [] =
    [⟨.consecutiveBlank, 3, 6, 2, 5⟩] := by decide
example : removeRange "a\n\n\n\n\nb\n".data 2 5 = "a\n\nb\n".data := by decide
example : nmelScan "a\n\nb\n".data 1 1 1 [] = [] := by decide

/-! ## Lemmas: the blank-line rule -/

theorem nmelGo_map_messageId {n mB mI mE : Nat} {S : List (List Char)}
    {textLen : Nat} :
    ∀ (ms : List Nat) (prev : Nat),
      (nmelGo n mB mI mE S textLen prev ms).map (fun r => r.messageId)
        = ((specPairs prev ms).filter
            (fun pq => decide (runMaxAllowed n mB mI mE pq.1 pq.2 < pq.2 - pq.1 - 1))).map
            (fun pq => runClass n pq.1 pq.2) := by
  intro ms
  induction ms with
  | nil => intro prev; rfl
  | cons q rest ih =>
    intro prev
    by_cases hc : runMaxAllowed n mB mI mE prev q < q - prev - 1
    · simp [nmelGo, specPairs, hc, ih]
    · simp [nmelGo, specPairs, hc, ih]

/-- C1: the blank-line scan is the spec's fold over consecutive non-blank
marker pairs from `previous = 0`: each run's length is the gap minus one, it
is classified beginning-of-file / end-of-file / interior by
`previous = 0` / `current = totalLines + 1` / otherwise, and a violation with
the classification's message is reported exactly when the length exceeds the
corresponding threshold.  On text with 3 leading blank lines, an interior run
of 6 and 2 trailing blank lines, the thresholds `maxBOF = 0`, `max = 5`,
`maxEOF = 1` yield exactly one BOF, one interior and one EOF violation. -/
theorem blank_line_run_classification :
    (∀ (text : List Char) (mI mE mB : Nat) (tll : List Nat),
      (nmelScan text mI mE mB tll).map (fun r => r.messageId)
        = specViolations (nmelTotal text) mI mE mB (nmelMarkers text tll))
    ∧ (noMultipleEmptyLines "\n\n\na\n\n\n\n\n\n\nb\n\n\n".data
        [⟨5, some 1, some 0⟩] []).map (fun r => r.messageId)
      = [.blankBeginningOfFile, .consecutiveBlank, .blankEndOfFile] :=
  ⟨fun _ _ _ _ _ => nmelGo_map_messageId _ _, by decide⟩

/-- C7, counterexample: with an empty options array (no options object at
all), the blank-line rule still runs, with `max`, `maxEOF`, `maxBOF` all
silently defaulted to 2 — here it emits an interior diagnostic judged against
the defaulted threshold 2. -/
theorem blank_line_max_default_cx :
    (noMultipleEmptyLines "a\n\n\n\nb\n".data [] []).map (fun r => r.messageId)
      = [.consecutiveBlank]
    ∧ noMultipleEmptyLines "a\n\n\n\nb\n".data [] []
      = nmelScan "a\n\n\n\nb\n".data 2 2 2 [] :=
  ⟨by decide, rfl⟩

/-- C7, amended: the declared schema rejects every supplied options object
missing `max` (`required: ['max']`); however, when no options object is
supplied at all, the rule still runs, with `max` (and hence `maxEOF`,
`maxBOF`) silently defaulted to 2. -/
theorem blank_line_max_required_amended :
    (∀ o : NmelRawOptions, o.rawMax = none → nmelSchemaAccepts o = false)
    ∧ ∀ (text : List Char) (tll : List Nat),
        noMultipleEmptyLines text [] tll = nmelScan text 2 2 2 tll := by
  constructor
  · intro o h
    simp [nmelSchemaAccepts, h]
  · intro text tll
    rfl

theorem blank_line_max_required_amended_witness :
    nmelSchemaAccepts ⟨none, some 1, none⟩ = false :=
  blank_line_max_required_amended.1 ⟨none, some 1, none⟩ rfl

/-- C8: for a supplied options object, an absent `maxBOF` resolves to the
supplied `max`, an absent `maxEOF` resolves to the supplied `max`, and the
three resolved thresholds are passed to the scan independently of one
another. -/
theorem blank_line_threshold_defaults :
    ∀ (text : List Char) (tll : List Nat) (m : Nat) (mE mB : Option Nat),
      noMultipleEmptyLines text [⟨m, mE, mB⟩] tll
        = nmelScan text m (mE.getD m) (mB.getD m) tll
      ∧ noMultipleEmptyLines text [⟨m, none, mB⟩] tll
        = noMultipleEmptyLines text [⟨m, some m, mB⟩] tll
      ∧ noMultipleEmptyLines text [⟨m, mE, none⟩] tll
        = noMultipleEmptyLines text [⟨m, mE, some m⟩] tll :=
  fun _ _ _ _ _ => ⟨rfl, rfl, rfl⟩

theorem contains_true_iff (tll : List Nat) (k : Nat) :
    tll.contains k = true ↔ k ∈ tll := by
  induction tll with
  | nil => simp
  | cons a t ih => simp [List.contains_cons, ih]

theorem mem_nonEmptyNums {tll : List Nat} :
    ∀ {ls : List (List Char)} {k x : Nat},
      x ∈ nonEmptyNums tll k ls ↔
        ∃ j line, ls.get? j = some line ∧ x = k + j
          ∧ isNonEmptyLine tll x line = true := by
  intro ls
  induction ls with
  | nil => simp [nonEmptyNums]
  | cons l rest ih =>
    intro k x
    simp only [nonEmptyNums, List.mem_append]
    constructor
    · rintro (h | h)
      · by_cases hc : isNonEmptyLine tll k l = true
        · rw [if_pos hc] at h
          simp only [List.mem_singleton] at h
          subst h
          exact ⟨0, l, rfl, by omega, hc⟩
        · rw [if_neg hc] at h
          simp at h
      · obtain ⟨j, line, hj, hx, hne⟩ := ih.mp h
        exact ⟨j + 1, line, by simpa using hj, by omega, hne⟩
    · rintro ⟨j, line, hj, hx, hne⟩
      cases j with
      | zero =>
        left
        simp only [List.get?_cons_zero, Option.some_inj] at hj
        subst hj
        have hxk : x = k := by omega
        subst hxk
        rw [if_pos hne]
        simp
      | succ j' =>
        right
        refine ih.mpr ⟨j', line, by simpa using hj, by omega, hne⟩

/-- C5: a line lying in a template-literal quasi's line span
`[startLine, endLine)` is accumulated into the excluded set; every excluded
line number (within range) is added to the non-blank marker sequence, so it is
never counted as blank; and with every threshold 0, a text whose two-line
literal body holds one empty line produces no diagnostic. -/
theorem blank_line_template_lines_excluded :
    (∀ (quasis : List (Nat × Nat)) (s e k : Nat),
        (s, e) ∈ quasis → s ≤ k → k < e → k ∈ quasiLines quasis)
    ∧ (∀ (text : List Char) (tll : List Nat) (k : Nat),
        k ∈ tll → 1 ≤ k → k ≤ nmelTotal text → k ∈ nmelMarkers text tll)
    ∧ nmelScan "q = `x\n\ny`\n".data 0 0 0 (quasiLines [(1, 3)]) = [] := by
  refine ⟨?_, ?_, by decide⟩
  · intro quasis s e k h h1 h2
    unfold quasiLines
    rw [List.mem_flatMap]
    refine ⟨(s, e), h, ?_⟩
    simp only [List.mem_range']
    exact ⟨k - s, by omega, by omega⟩
  · intro text tll k hk h1 hn
    unfold nmelMarkers
    rw [List.mem_append]
    left
    have hlt : k - 1 < (nmelAllLines text).length := by
      unfold nmelTotal at hn; omega
    refine mem_nonEmptyNums.mpr ⟨k - 1, (nmelAllLines text).get ⟨k - 1, hlt⟩,
      List.get?_eq_get hlt, by omega, ?_⟩
    unfold isNonEmptyLine
    rw [(contains_true_iff tll k).mpr hk]
    simp

theorem blank_line_template_lines_excluded_witness :
    2 ∈ quasiLines [(1, 3)]
    ∧ 2 ∈ nmelMarkers "q = `x\n\ny`\n".data [1, 2] :=
  ⟨blank_line_template_lines_excluded.1 [(1, 3)] 1 3 2 (by decide) (by decide)
     (by decide),
   blank_line_template_lines_excluded.2.1 "q = `x\n\ny`\n".data [1, 2] 2
     (by decide) (by decide) (by decide)⟩

theorem nonEmptyNums_nil_of_blank :
    ∀ {ls : List (List Char)} {k : Nat},
      (∀ l ∈ ls, anyNonWhitespace l = false) → nonEmptyNums [] k ls = [] := by
  intro ls
  induction ls with
  | nil => intro k _; rfl
  | cons l rest ih =>
    intro k h
    have hl : anyNonWhitespace l = false := h l (List.mem_cons_self _ _)
    have : isNonEmptyLine [] k l = false := by
      unfold isNonEmptyLine
      rw [hl]
      rfl
    simp only [nonEmptyNums, this]
    simpa using ih fun l hl' => h l (List.mem_cons_of_mem _ hl')

/-- C10: when every checkable line of the file is blank, the only marker is
the sentinel, and the single whole-file run is classified beginning-of-file
(the `previous = 0` test precedes the end-of-file test): it is judged against
`maxBOF` alone, and reported with the `blankBeginningOfFile` message exactly
when the file's line count exceeds `maxBOF`. -/
theorem blank_whole_file_is_bof :
    ∀ (text : List Char) (mI mE mB : Nat),
      (∀ l ∈ nmelAllLines text, anyNonWhitespace l = false) →
      ((nmelScan text mI mE mB []).map (fun r => r.messageId)
          = if mB < nmelTotal text then [.blankBeginningOfFile] else [])
      ∧ (nmelScan text mI mE mB [] ≠ [] ↔ mB < nmelTotal text) := by
  intro text mI mE mB hblank
  have hmarkers : nmelMarkers text [] = [nmelTotal text + 1] := by
    unfold nmelMarkers
    rw [nonEmptyNums_nil_of_blank hblank]
    rfl
  unfold nmelScan
  rw [hmarkers]
  by_cases h : mB < nmelTotal text
  · constructor
    · simp [nmelGo, runMaxAllowed, runClass, h]
    · simp [nmelGo, runMaxAllowed, runClass, h]
  · constructor
    · simp [nmelGo, runMaxAllowed, runClass, h]
    · simp [nmelGo, runMaxAllowed, runClass, h]

theorem blank_whole_file_is_bof_witness :
    (∀ l ∈ nmelAllLines "\n\n".data, anyNonWhitespace l = false)
    ∧ ((nmelScan "\n\n".data 7 9 0 []).map (fun r => r.messageId)
        = if 0 < nmelTotal "\n\n".data then [.blankBeginningOfFile] else []) :=
  ⟨by decide, (blank_whole_file_is_bof "\n\n".data 7 9 0 (by decide)).1⟩

theorem thresholdFor_runClass (mI mE mB n prev q : Nat) :
    thresholdFor mI mE mB (runClass n prev q) = runMaxAllowed n mB mI mE prev q := by
  unfold thresholdFor runClass runMaxAllowed
  by_cases h : prev = 0
  · simp [h]
  · by_cases h' : q = n + 1 <;> simp [h, h']

theorem nmelGo_mem {n mB mI mE : Nat} {S : List (List Char)} {textLen : Nat} :
    ∀ {ms : List Nat} {prev : Nat} {r : NmelReport},
      r ∈ nmelGo n mB mI mE S textLen prev ms →
      ∃ xs q ys, ms = xs ++ q :: ys
        ∧ runMaxAllowed n mB mI mE (xs.getLastD prev) q
            < q - (xs.getLastD prev) - 1
        ∧ r = ⟨runClass n (xs.getLastD prev) q,
            (xs.getLastD prev) + runMaxAllowed n mB mI mE (xs.getLastD prev) q + 1,
            q,
            lineStartIdx S ((xs.getLastD prev) + 1),
            if q - runMaxAllowed n mB mI mE (xs.getLastD prev) q ≤ n then
              lineStartIdx S (q - runMaxAllowed n mB mI mE (xs.getLastD prev) q)
            else textLen⟩ := by
  intro ms
  induction ms with
  | nil => intro prev r h; simp [nmelGo] at h
  | cons q rest ih =>
    intro prev r h
    simp only [nmelGo, List.mem_append] at h
    rcases h with h | h
    · by_cases hc : q - prev - 1 > runMaxAllowed n mB mI mE prev q
      · rw [if_pos hc] at h
        simp only [List.mem_singleton] at h
        exact ⟨[], q, rest, rfl, by simpa using hc, by simpa using h⟩
      · rw [if_neg hc] at h
        simp at h
    · obtain ⟨xs, q', ys, hms, hcond, hr⟩ := ih h
      refine ⟨q :: xs, q', ys, by rw [hms]; rfl, ?_, ?_⟩
      · rwa [List.getLastD_cons]
      · rwa [List.getLastD_cons]

/-- C2, counterexample to the claim's fix-range description: on
`"a\n\n\n\n\nb\n"` with `{max: 1}` the single diagnostic starts at line 3
(`previous + threshold + 1`), whose line-start offset is 3, yet the attached
fix's removal range starts at offset 2 — the start of line `previous + 1`,
not the start of the diagnostic's first (excess) line. -/
theorem blank_line_fix_range_cx :
    (noMultipleEmptyLines "a\n\n\n\n\nb\n".data [⟨1, none, none⟩] []).map
        (fun r => (r.startLine, r.fixStart)) = [(3, 2)]
    ∧ lineStartIdx (splitLines "a\n\n\n\n\nb\n".data) 3 = 3
    ∧ (2 : Nat) ≠ 3 :=
  ⟨by decide, by decide, by decide⟩

/-- C2, amended: every reported diagnostic spans from line
`previous + threshold + 1` (column 0) through the next non-blank marker line
(column 0), and its fix removes exactly the excess blank lines while keeping
the *last* `threshold` blank lines of the run: the removal range runs from
the start of line `previous + 1` (the first blank line of the run) to the
start of line `nextMarker − threshold` (the first kept line), or to the end
of the text when that line number exceeds the checkable line count. -/
theorem blank_line_report_span_and_fix :
    ∀ (text : List Char) (mI mE mB : Nat) (tll : List Nat) (r : NmelReport),
      r ∈ nmelScan text mI mE mB tll →
      ∃ p q, thresholdFor mI mE mB r.messageId < q - p - 1
        ∧ r.startLine = p + thresholdFor mI mE mB r.messageId + 1
        ∧ r.endLine = q
        ∧ r.fixStart = lineStartIdx (splitLines text) (p + 1)
        ∧ r.fixEnd = (if q - thresholdFor mI mE mB r.messageId ≤ nmelTotal text
            then lineStartIdx (splitLines text)
              (q - thresholdFor mI mE mB r.messageId)
            else text.length) := by
  intro text mI mE mB tll r h
  obtain ⟨xs, q, ys, hms, hcond, hr⟩ := nmelGo_mem h
  refine ⟨xs.getLastD 0, q, ?_, ?_, ?_, ?_, ?_⟩ <;>
    rw [hr] <;> simp only [thresholdFor_runClass] <;> first | exact hcond | rfl

theorem blank_line_report_span_and_fix_witness :
    ((⟨.consecutiveBlank, 3, 6, 2, 5⟩ : NmelReport)
        ∈ nmelScan "a\n\n\n\n\nb\n".data 1 1 1 [])
    ∧ ∃ p q, thresholdFor 1 1 1 .consecutiveBlank < q - p - 1
        ∧ (3 : Nat) = p + thresholdFor 1 1 1 .consecutiveBlank + 1
        ∧ (6 : Nat) = q
        ∧ (2 : Nat) = lineStartIdx (splitLines "a\n\n\n\n\nb\n".data) (p + 1)
        ∧ (5 : Nat) = (if q - thresholdFor 1 1 1 .consecutiveBlank
              ≤ nmelTotal "a\n\n\n\n\nb\n".data
            then lineStartIdx (splitLines "a\n\n\n\n\nb\n".data)
              (q - thresholdFor 1 1 1 .consecutiveBlank)
            else "a\n\n\n\n\nb\n".data.length) :=
  ⟨by decide,
   blank_line_report_span_and_fix "a\n\n\n\n\nb\n".data 1 1 1 []
     (⟨.consecutiveBlank, 3, 6, 2, 5⟩ : NmelReport) (by decide)⟩

/-! ## Lemmas: text decomposition and fix application -/

theorem splitLines_ne_nil (t : List Char) : splitLines t ≠ [] := by
  induction t with
  | nil => simp [splitLines]
  | cons c rest ih =>
    unfold splitLines
    cases h : splitLines rest with
    | nil => simp
    | cons l ls => by_cases hc : c = '\n' <;> simp [hc]

theorem splitLines_cons_eq {c : Char} {rest l0 : List Char}
    {ls : List (List Char)} (hs : splitLines rest = l0 :: ls) :
    splitLines (c :: rest)
      = if c = '\n' then [] :: l0 :: ls else (c :: l0) :: ls := by
  unfold splitLines
  rw [hs]

theorem no_nl_mem_splitLines :
    ∀ {t l : List Char}, l ∈ splitLines t → '\n' ∉ l := by
  intro t
  induction t with
  | nil =>
    intro l h
    simp [splitLines] at h
    simp [h]
  | cons c rest ih =>
    intro l h
    cases hs : splitLines rest with
    | nil => exact absurd hs (splitLines_ne_nil rest)
    | cons l0 ls =>
      rw [splitLines_cons_eq hs] at h
      by_cases hc : c = '\n'
      · rw [if_pos hc] at h
        rcases List.mem_cons.mp h with rfl | h2
        · simp
        · exact ih (hs ▸ h2)
      · rw [if_neg hc] at h
        rcases List.mem_cons.mp h with rfl | h2
        · intro hmem
          rcases List.mem_cons.mp hmem with h3 | h3
          · exact hc h3.symm
          · exact ih (hs ▸ List.mem_cons_self l0 ls) h3
        · exact ih (hs ▸ List.mem_cons_of_mem l0 h2)

theorem joinLines_cons_of_ne_nil {ls : List (List Char)} (l : List Char)
    (h : ls ≠ []) : joinLines (l :: ls) = l ++ '\n' :: joinLines ls := by
  cases ls with
  | nil => exact absurd rfl h
  | cons a as => rfl

theorem joinLines_cons_cons (c : Char) (l : List Char) (ls : List (List Char)) :
    joinLines ((c :: l) :: ls) = c :: joinLines (l :: ls) := by
  cases ls with
  | nil => rfl
  | cons a as => rfl

theorem joinLines_splitLines (t : List Char) : joinLines (splitLines t) = t := by
  induction t with
  | nil => rfl
  | cons c rest ih =>
    cases hs : splitLines rest with
    | nil => exact absurd hs (splitLines_ne_nil rest)
    | cons l ls =>
      rw [splitLines_cons_eq hs]
      by_cases hc : c = '\n'
      · rw [if_pos hc]
        have : joinLines ([] :: l :: ls) = '\n' :: joinLines (l :: ls) := rfl
        rw [this, ← hs, ih, hc]
      · rw [if_neg hc, joinLines_cons_cons, ← hs, ih]

theorem splitLines_append_nl :
    ∀ {l : List Char}, '\n' ∉ l →
      ∀ (t : List Char), splitLines (l ++ '\n' :: t) = l :: splitLines t := by
  intro l
  induction l with
  | nil =>
    intro _ t
    show splitLines ('\n' :: t) = [] :: splitLines t
    cases hs : splitLines t with
    | nil => exact absurd hs (splitLines_ne_nil t)
    | cons a as => rw [splitLines_cons_eq hs, if_pos rfl]
  | cons c l ih =>
    intro hnl t
    have hc : c ≠ '\n' := fun h => hnl (h ▸ List.mem_cons_self c l)
    have hl : '\n' ∉ l := fun h => hnl (List.mem_cons_of_mem c h)
    show splitLines (c :: (l ++ '\n' :: t)) = (c :: l) :: splitLines t
    rw [splitLines_cons_eq (ih hl t), if_neg hc]

theorem splitLines_no_nl {l : List Char} (h : '\n' ∉ l) : splitLines l = [l] := by
  induction l with
  | nil => rfl
  | cons c l ih =>
    have hc : c ≠ '\n' := fun hh => h (hh ▸ List.mem_cons_self c l)
    have hl : '\n' ∉ l := fun hh => h (List.mem_cons_of_mem c hh)
    show splitLines (c :: l) = [c :: l]
    rw [splitLines_cons_eq (ih hl), if_neg hc]

theorem splitLines_joinNl :
    ∀ {ls : List (List Char)}, (∀ l ∈ ls, '\n' ∉ l) →
      splitLines (joinNl ls) = ls ++ [[]] := by
  intro ls
  induction ls with
  | nil => intro _; rfl
  | cons l ls ih =>
    intro h
    show splitLines (l ++ '\n' :: joinNl ls) = (l :: ls) ++ [[]]
    rw [splitLines_append_nl (h l (List.mem_cons_self l ls)) (joinNl ls),
      ih fun x hx => h x (List.mem_cons_of_mem l hx)]
    rfl

theorem splitLines_joinLines :
    ∀ {ys : List (List Char)}, (∀ l ∈ ys, '\n' ∉ l) → ys ≠ [] →
      splitLines (joinLines ys) = ys := by
  intro ys
  induction ys with
  | nil => intro _ h; exact absurd rfl h
  | cons y ys ih =>
    intro h _
    cases ys with
    | nil => exact splitLines_no_nl (h y (List.mem_cons_self y []))
    | cons z zs =>
      rw [joinLines_cons_of_ne_nil y (by simp)]
      rw [splitLines_append_nl (h y (List.mem_cons_self y _)) _,
        ih (fun x hx => h x (List.mem_cons_of_mem y hx)) (by simp)]

theorem splitLines_joinNl_joinLines :
    ∀ {xs ys : List (List Char)}, (∀ l ∈ xs, '\n' ∉ l) → (∀ l ∈ ys, '\n' ∉ l) →
      ys ≠ [] → splitLines (joinNl xs ++ joinLines ys) = xs ++ ys := by
  intro xs
  induction xs with
  | nil =>
    intro ys _ hys hne
    show splitLines (joinLines ys) = ys
    exact splitLines_joinLines hys hne
  | cons x xs ih =>
    intro ys hxs hys hne
    have : joinNl (x :: xs) ++ joinLines ys
        = x ++ '\n' :: (joinNl xs ++ joinLines ys) := by
      show (x ++ '\n' :: joinNl xs) ++ joinLines ys = _
      simp
    rw [this, splitLines_append_nl (hxs x (List.mem_cons_self x xs)) _,
      ih (fun l hl => hxs l (List.mem_cons_of_mem x hl)) hys hne]
    rfl

theorem joinNl_length (ls : List (List Char)) :
    (joinNl ls).length = ((ls.map fun l => l.length + 1)).sum := by
  induction ls with
  | nil => rfl
  | cons l ls ih => simp [joinNl, ih]; omega

theorem lineStartIdx_eq_joinNl_length (S : List (List Char)) (k : Nat) :
    lineStartIdx S (k + 1) = (joinNl (S.take k)).length := by
  unfold lineStartIdx
  rw [joinNl_length]
  simp

theorem joinLines_decompose :
    ∀ (k : Nat) (ls : List (List Char)), k < ls.length →
      joinLines ls = joinNl (ls.take k) ++ joinLines (ls.drop k) := by
  intro k
  induction k with
  | zero => intro ls _; simp [joinNl]
  | succ k ih =>
    intro ls hk
    cases ls with
    | nil => simp at hk
    | cons l rest =>
      have hr : k < rest.length := by simpa using hk
      have hrne : rest ≠ [] := by
        intro h; rw [h] at hr; simp at hr
      rw [joinLines_cons_of_ne_nil l hrne, ih rest hr]
      show _ = ((l ++ '\n' :: joinNl (rest.take k))) ++ joinLines (rest.drop k)
      simp

theorem take_lineStart_join {ls : List (List Char)} {k : Nat}
    (hk : k < ls.length) :
    (joinLines ls).take (lineStartIdx ls (k + 1)) = joinNl (ls.take k) := by
  rw [lineStartIdx_eq_joinNl_length, joinLines_decompose k ls hk]
  exact List.take_left _ _

theorem drop_lineStart_join {ls : List (List Char)} {k : Nat}
    (hk : k < ls.length) :
    (joinLines ls).drop (lineStartIdx ls (k + 1)) = joinLines (ls.drop k) := by
  rw [lineStartIdx_eq_joinNl_length, joinLines_decompose k ls hk]
  exact List.drop_left _ _

theorem take_lineStartIdx {t : List Char} {k : Nat}
    (hk : k < (splitLines t).length) :
    t.take (lineStartIdx (splitLines t) (k + 1)) = joinNl ((splitLines t).take k) := by
  nth_rewrite 2 [← joinLines_splitLines t]
  exact take_lineStart_join hk

theorem drop_lineStartIdx {t : List Char} {k : Nat}
    (hk : k < (splitLines t).length) :
    t.drop (lineStartIdx (splitLines t) (k + 1))
      = joinLines ((splitLines t).drop k) := by
  nth_rewrite 2 [← joinLines_splitLines t]
  exact drop_lineStart_join hk

theorem removeRange_splitLines {t : List Char} {a b : Nat} (ha : 1 ≤ a)
    (hab : a ≤ b) (hb : b - 1 < (splitLines t).length) :
    splitLines (removeRange t (lineStartIdx (splitLines t) a)
        (lineStartIdx (splitLines t) b))
      = (splitLines t).take (a - 1) ++ (splitLines t).drop (b - 1) := by
  have ha' : a - 1 < (splitLines t).length := by omega
  have h1 : a = (a - 1) + 1 := by omega
  have h2 : b = (b - 1) + 1 := by omega
  unfold removeRange
  rw [h1, h2, take_lineStartIdx ha', drop_lineStartIdx hb]
  exact splitLines_joinNl_joinLines
    (fun l hl => no_nl_mem_splitLines (List.take_subset _ _ hl))
    (fun l hl => no_nl_mem_splitLines (List.drop_subset _ _ hl))
    (by
      intro h
      rw [List.drop_eq_nil_iff_le] at h
      omega)

theorem removeRange_splitLines_end {t : List Char} {a : Nat} (ha : 1 ≤ a)
    (hb : a - 1 < (splitLines t).length) :
    splitLines (removeRange t (lineStartIdx (splitLines t) a) t.length)
      = (splitLines t).take (a - 1) ++ [[]] := by
  have h1 : a = (a - 1) + 1 := by omega
  unfold removeRange
  rw [List.drop_length, h1, take_lineStartIdx hb, List.append_nil]
  exact splitLines_joinNl
    (fun l hl => no_nl_mem_splitLines (List.take_subset _ _ hl))

theorem getLast?_append_right {α : Type} (l₁ l₂ : List α) (h : l₂ ≠ []) :
    (l₁ ++ l₂).getLast? = l₂.getLast? := by
  obtain ⟨init, a, rfl⟩ := l₂.eq_nil_or_concat.resolve_left h
  simp only [List.concat_eq_append, ← List.append_assoc, List.getLast?_concat]

theorem drop_ne_nil_of_lt {α : Type} {l : List α} {k : Nat} (hk : k < l.length) :
    l.drop k ≠ [] := by
  intro h
  rw [List.drop_eq_nil_iff_le] at h
  omega

theorem getLast?_drop_eq {α : Type} {l : List α} {k : Nat} (hk : k < l.length) :
    (l.drop k).getLast? = l.getLast? := by
  conv_rhs => rw [← List.take_append_drop k l]
  rw [getLast?_append_right _ _ (drop_ne_nil_of_lt hk)]

theorem dropLast_cons_ne {α : Type} {a : α} {l : List α} (h : l ≠ []) :
    (a :: l).dropLast = a :: l.dropLast := by
  cases l with
  | nil => exact absurd rfl h
  | cons b bs => rfl

theorem dropLast_drop_comm {α : Type} :
    ∀ (l : List α) (k : Nat), k < l.length →
      (l.drop k).dropLast = l.dropLast.drop k := by
  intro l
  induction l with
  | nil => intro k hk; simp at hk
  | cons a rest ih =>
    intro k hk
    cases k with
    | zero => simp
    | succ k' =>
      have hk' : k' < rest.length := by simpa using hk
      have hrne : rest ≠ [] := by
        intro h; rw [h] at hk'; simp at hk'
      rw [List.drop_succ_cons, ih k' hk', dropLast_cons_ne hrne,
        List.drop_succ_cons]

theorem take_dropLast_eq {α : Type} :
    ∀ (l : List α) (j : Nat), j + 1 ≤ l.length → l.dropLast.take j = l.take j := by
  intro l
  induction l with
  | nil => intro j hj; simp at hj
  | cons a rest ih =>
    intro j hj
    cases j with
    | zero => simp
    | succ j' =>
      have hj' : j' + 1 ≤ rest.length := by simpa using hj
      have hrne : rest ≠ [] := by
        intro h; rw [h] at hj'; simp at hj'
      rw [dropLast_cons_ne hrne, List.take_succ_cons, List.take_succ_cons,
        ih j' hj']

theorem nonEmptyNums_append (tll : List Nat) :
    ∀ (xs ys : List (List Char)) (k : Nat),
      nonEmptyNums tll k (xs ++ ys)
        = nonEmptyNums tll k xs ++ nonEmptyNums tll (k + xs.length) ys := by
  intro xs
  induction xs with
  | nil => intro ys k; simp [nonEmptyNums]
  | cons l rest ih =>
    intro ys k
    have harith : k + 1 + rest.length = k + (rest.length + 1) := by omega
    simp only [List.cons_append, nonEmptyNums, List.append_eq, ih ys (k + 1),
      List.append_assoc, List.length_cons, harith]

theorem nonEmptyNums_mem_bounds {tll : List Nat} {ls : List (List Char)}
    {k x : Nat} (h : x ∈ nonEmptyNums tll k ls) : k ≤ x ∧ x < k + ls.length := by
  obtain ⟨j, line, hj, hxe, -⟩ := mem_nonEmptyNums.mp h
  have hjlt : ¬ ls.length ≤ j := by
    intro hle
    rw [List.get?_eq_none.mpr hle] at hj
    exact absurd hj (by simp)
  omega

theorem nonEmptyNums_pairwise (tll : List Nat) :
    ∀ (ls : List (List Char)) (k : Nat),
      (nonEmptyNums tll k ls).Pairwise (· < ·) := by
  intro ls
  induction ls with
  | nil => intro k; simp [nonEmptyNums]
  | cons l rest ih =>
    intro k
    by_cases hc : isNonEmptyLine tll k l = true
    · simp only [nonEmptyNums, if_pos hc, List.singleton_append]
      refine List.Pairwise.cons ?_ (ih (k + 1))
      intro y hy
      have := (nonEmptyNums_mem_bounds hy).1
      omega
    · simp only [nonEmptyNums, if_neg hc, List.nil_append]
      exact ih (k + 1)

theorem nonEmptyNums_shift {tll' tll : List Nat} {d : Nat} :
    ∀ (ls : List (List Char)) (k : Nat),
      (∀ x, k ≤ x → tll'.contains x = tll.contains (x + d)) →
      nonEmptyNums tll' k ls
        = (nonEmptyNums tll (k + d) ls).map (fun x => x - d) := by
  intro ls
  induction ls with
  | nil => intro k _; rfl
  | cons l rest ih =>
    intro k h
    have hline : isNonEmptyLine tll' k l = isNonEmptyLine tll (k + d) l := by
      unfold isNonEmptyLine
      rw [h k (le_refl k)]
    have htail := ih (k + 1) fun x hx => h x (by omega)
    have harith : k + 1 + d = k + d + 1 := by omega
    by_cases hc : isNonEmptyLine tll (k + d) l = true
    · simp only [nonEmptyNums, hline, if_pos hc, htail, harith, List.map_cons,
        List.singleton_append, List.cons_append, List.nil_append]
      simp
    · simp only [nonEmptyNums, hline, if_neg hc, htail, harith, List.nil_append]

theorem nonEmptyNums_congr {tll tll' : List Nat} :
    ∀ (ls : List (List Char)) (k : Nat),
      (∀ x, k ≤ x → x < k + ls.length → tll'.contains x = tll.contains x) →
      nonEmptyNums tll' k ls = nonEmptyNums tll k ls := by
  intro ls
  induction ls with
  | nil => intro k _; rfl
  | cons l rest ih =>
    intro k h
    have hline : isNonEmptyLine tll' k l = isNonEmptyLine tll k l := by
      unfold isNonEmptyLine
      rw [h k (le_refl k) (by simp)]
    have htail := ih (k + 1) fun x hx1 hx2 =>
      h x (by omega) (by simp only [List.length_cons]; omega)
    simp only [nonEmptyNums, hline, htail]

theorem nonEmptyNums_eq_nil {tll : List Nat} {ls : List (List Char)} {k : Nat}
    (h : ∀ j line, ls.get? j = some line →
      isNonEmptyLine tll (k + j) line = false) :
    nonEmptyNums tll k ls = [] := by
  rw [List.eq_nil_iff_forall_not_mem]
  intro x hx
  obtain ⟨j, line, hj, hxe, hne⟩ := mem_nonEmptyNums.mp hx
  rw [hxe] at hne
  rw [h j line hj] at hne
  simp at hne

theorem shiftTll_contains_le {tll : List Nat} {p d k : Nat} (hk : k ≤ p) :
    (shiftTll tll p d).contains k = tll.contains k := by
  have hiff : k ∈ shiftTll tll p d ↔ k ∈ tll := by
    unfold shiftTll
    rw [List.mem_filterMap]
    constructor
    · rintro ⟨l, hl, hfl⟩
      by_cases hlp : l ≤ p
      · rw [if_pos hlp] at hfl
        obtain rfl := Option.some_inj.mp hfl
        exact hl
      · rw [if_neg hlp] at hfl
        by_cases hpd : p + d < l
        · rw [if_pos hpd] at hfl
          obtain rfl := Option.some_inj.mp hfl
          omega
        · rw [if_neg hpd] at hfl
          simp at hfl
    · intro hl
      exact ⟨k, hl, by rw [if_pos hk]⟩
  by_cases hm : k ∈ tll
  · rw [(contains_true_iff _ _).mpr hm, (contains_true_iff _ _).mpr (hiff.mpr hm)]
  · have hl : (shiftTll tll p d).contains k ≠ true := fun hh =>
      hm (hiff.mp ((contains_true_iff _ _).mp hh))
    have hr : tll.contains k ≠ true := fun hh => hm ((contains_true_iff _ _).mp hh)
    simp only [ne_eq, Bool.not_eq_true] at hl hr
    rw [hl, hr]

theorem shiftTll_contains_gt {tll : List Nat} {p d k : Nat} (hk : p < k) :
    (shiftTll tll p d).contains k = tll.contains (k + d) := by
  have hiff : k ∈ shiftTll tll p d ↔ k + d ∈ tll := by
    unfold shiftTll
    rw [List.mem_filterMap]
    constructor
    · rintro ⟨l, hl, hfl⟩
      by_cases hlp : l ≤ p
      · rw [if_pos hlp] at hfl
        obtain rfl := Option.some_inj.mp hfl
        omega
      · rw [if_neg hlp] at hfl
        by_cases hpd : p + d < l
        · rw [if_pos hpd] at hfl
          have : l - d = k := Option.some_inj.mp hfl
          have : l = k + d := by omega
          rwa [← this]
        · rw [if_neg hpd] at hfl
          simp at hfl
    · intro hl
      refine ⟨k + d, hl, ?_⟩
      rw [if_neg (by omega), if_pos (by omega)]
      simp
  by_cases hm : k + d ∈ tll
  · rw [(contains_true_iff _ _).mpr hm, (contains_true_iff _ _).mpr (hiff.mpr hm)]
  · have hl : (shiftTll tll p d).contains k ≠ true := fun hh =>
      hm (hiff.mp ((contains_true_iff _ _).mp hh))
    have hr : tll.contains (k + d) ≠ true := fun hh =>
      hm ((contains_true_iff _ _).mp hh)
    simp only [ne_eq, Bool.not_eq_true] at hl hr
    rw [hl, hr]

theorem append_split_unique {P : Nat → Prop} :
    ∀ {A B C D : List Nat}, A ++ B = C ++ D →
      (∀ x ∈ A, P x) → (∀ x ∈ B, ¬ P x) →
      (∀ x ∈ C, P x) → (∀ x ∈ D, ¬ P x) →
      A = C ∧ B = D := by
  intro A
  induction A with
  | nil =>
    intro B C D h hA hB hC hD
    cases C with
    | nil => exact ⟨rfl, by simpa using h⟩
    | cons c C' =>
      exfalso
      have hBeq : B = c :: (C' ++ D) := by simpa using h
      have hcB : c ∈ B := by rw [hBeq]; exact List.mem_cons_self _ _
      exact hB c hcB (hC c (List.mem_cons_self _ _))
  | cons a A' ih =>
    intro B C D h hA hB hC hD
    cases C with
    | nil =>
      exfalso
      have hDeq : D = a :: (A' ++ B) := by simpa using h.symm
      have haD : a ∈ D := by rw [hDeq]; exact List.mem_cons_self _ _
      exact hD a haD (hA a (List.mem_cons_self _ _))
    | cons c C' =>
      simp only [List.cons_append, List.cons.injEq] at h
      obtain ⟨rfl, h2⟩ := h
      obtain ⟨h3, h4⟩ := ih h2 (fun x hx => hA x (List.mem_cons_of_mem _ hx)) hB
        (fun x hx => hC x (List.mem_cons_of_mem _ hx)) hD
      exact ⟨by rw [h3], h4⟩

theorem nmelGo_append {n mB mI mE : Nat} {S : List (List Char)} {textLen : Nat} :
    ∀ (xs ys : List Nat) (prev : Nat),
      nmelGo n mB mI mE S textLen prev (xs ++ ys)
        = nmelGo n mB mI mE S textLen prev xs
          ++ nmelGo n mB mI mE S textLen (xs.getLastD prev) ys := by
  intro xs
  induction xs with
  | nil => intro ys prev; rfl
  | cons q rest ih =>
    intro ys prev
    simp only [List.cons_append, nmelGo, List.append_eq, ih ys q,
      List.append_assoc, List.getLastD_cons]

theorem nmelGo_report_bounds {n mB mI mE : Nat} {S : List (List Char)}
    {textLen : Nat} :
    ∀ {ms : List Nat} {prev : Nat} {rep : NmelReport},
      rep ∈ nmelGo n mB mI mE S textLen prev ms →
      rep.startLine < rep.endLine ∧ rep.endLine ∈ ms := by
  intro ms
  induction ms with
  | nil => intro prev rep h; simp [nmelGo] at h
  | cons q rest ih =>
    intro prev rep h
    simp only [nmelGo, List.mem_append] at h
    rcases h with h | h
    · by_cases hc : q - prev - 1 > runMaxAllowed n mB mI mE prev q
      · rw [if_pos hc] at h
        simp only [List.mem_singleton] at h
        subst h
        refine ⟨?_, List.mem_cons_self _ _⟩
        show prev + runMaxAllowed n mB mI mE prev q + 1 < q
        omega
      · rw [if_neg hc] at h
        simp at h
    · obtain ⟨h1, h2⟩ := ih h
      exact ⟨h1, List.mem_cons_of_mem _ h2⟩

theorem nmelGo_startLine_ge {n mB mI mE : Nat} {S : List (List Char)}
    {textLen : Nat} :
    ∀ {ms : List Nat} {prev : Nat}, List.Chain (· ≤ ·) prev ms →
      ∀ rep ∈ nmelGo n mB mI mE S textLen prev ms, prev + 1 ≤ rep.startLine := by
  intro ms
  induction ms with
  | nil => intro prev _ rep h; simp [nmelGo] at h
  | cons q rest ih =>
    intro prev hchain rep h
    rw [List.chain_cons] at hchain
    obtain ⟨hpq, hchain'⟩ := hchain
    simp only [nmelGo, List.mem_append] at h
    rcases h with h | h
    · by_cases hc : q - prev - 1 > runMaxAllowed n mB mI mE prev q
      · rw [if_pos hc] at h
        simp only [List.mem_singleton] at h
        subst h
        show prev + 1 ≤ prev + runMaxAllowed n mB mI mE prev q + 1
        omega
      · rw [if_neg hc] at h
        simp at h
    · have := ih hchain' rep h
      omega

theorem nmelMarkers_bounds {text : List Char} {tll : List Nat} :
    ∀ x ∈ nmelMarkers text tll, 1 ≤ x ∧ x ≤ nmelTotal text + 1 := by
  intro x hx
  unfold nmelMarkers at hx
  rcases List.mem_append.mp hx with h | h
  · have := nonEmptyNums_mem_bounds h
    unfold nmelTotal
    omega
  · simp only [List.mem_singleton] at h
    omega

theorem nmelMarkers_pairwise (text : List Char) (tll : List Nat) :
    (nmelMarkers text tll).Pairwise (· < ·) := by
  unfold nmelMarkers
  rw [List.pairwise_append]
  refine ⟨nonEmptyNums_pairwise tll _ 1, by simp, ?_⟩
  intro a ha b hb
  simp only [List.mem_singleton] at hb
  subst hb
  have := nonEmptyNums_mem_bounds ha
  unfold nmelTotal
  omega

theorem getLastD_mem_or {l : List Nat} : ∀ {d : Nat}, l.getLastD d = d ∨ l.getLastD d ∈ l := by
  induction l with
  | nil => intro d; exact Or.inl rfl
  | cons a rest ih =>
    intro d
    rw [List.getLastD_cons]
    rcases @ih a with h | h
    · right
      rw [h]
      exact List.mem_cons_self _ _
    · exact Or.inr (List.mem_cons_of_mem _ h)

theorem sorted_le_getLastD :
    ∀ {l : List Nat} {d : Nat}, l.Pairwise (· < ·) → ∀ x ∈ l, x ≤ l.getLastD d := by
  intro l
  induction l with
  | nil => intro d _ x hx; simp at hx
  | cons a rest ih =>
    intro d hp x hx
    rw [List.pairwise_cons] at hp
    obtain ⟨ha, hp'⟩ := hp
    rw [List.getLastD_cons]
    rcases List.mem_cons.mp hx with rfl | hx'
    · rcases getLastD_mem_or (l := rest) (d := x) with h | h
      · omega
      · have := ha _ h
        omega
    · exact ih hp' x hx'

theorem dropLast_append_ne {α : Type} (X Y : List α) (h : Y ≠ []) :
    (X ++ Y).dropLast = X ++ Y.dropLast := by
  obtain ⟨init, a, rfl⟩ := Y.eq_nil_or_concat.resolve_left h
  simp only [List.concat_eq_append, ← List.append_assoc, List.dropLast_concat]

theorem nmelTotal_le_len (text : List Char) :
    nmelTotal text ≤ (splitLines text).length := by
  unfold nmelTotal nmelAllLines
  by_cases h : (splitLines text).getLast? = some []
  · rw [if_pos h, List.length_dropLast]
    omega
  · rw [if_neg h]

theorem nmelAllLines_removeRange {text : List Char} {p b : Nat}
    (hp1 : p + 1 ≤ b) (hbn : b ≤ nmelTotal text) :
    nmelAllLines (removeRange text (lineStartIdx (splitLines text) (p + 1))
        (lineStartIdx (splitLines text) b))
      = (nmelAllLines text).take p ++ (nmelAllLines text).drop (b - 1) := by
  have hnS := nmelTotal_le_len text
  have hblt : b - 1 < (splitLines text).length := by omega
  have hS' : splitLines (removeRange text
      (lineStartIdx (splitLines text) (p + 1)) (lineStartIdx (splitLines text) b))
      = (splitLines text).take p ++ (splitLines text).drop (b - 1) := by
    have := removeRange_splitLines (t := text) (a := p + 1) (b := b)
      (by omega) (by omega) hblt
    simpa using this
  have hdropne : (splitLines text).drop (b - 1) ≠ [] := drop_ne_nil_of_lt hblt
  have hlast : ((splitLines text).take p
      ++ (splitLines text).drop (b - 1)).getLast? = (splitLines text).getLast? := by
    rw [getLast?_append_right _ _ hdropne, getLast?_drop_eq hblt]
  unfold nmelAllLines
  rw [hS']
  by_cases htr : (splitLines text).getLast? = some []
  · rw [if_pos (by rw [hlast]; exact htr), if_pos htr]
    rw [dropLast_append_ne _ _ hdropne, dropLast_drop_comm _ _ hblt,
      take_dropLast_eq _ _ (by omega)]
  · rw [if_neg (by rw [hlast]; exact htr), if_neg htr]

theorem nmelAllLines_removeRange_end {text : List Char} {p : Nat}
    (hp : p < nmelTotal text) :
    nmelAllLines (removeRange text (lineStartIdx (splitLines text) (p + 1))
        text.length)
      = (nmelAllLines text).take p := by
  have hnS := nmelTotal_le_len text
  have hplt : p < (splitLines text).length := by omega
  have hS' : splitLines (removeRange text
      (lineStartIdx (splitLines text) (p + 1)) text.length)
      = (splitLines text).take p ++ [[]] := by
    have := removeRange_splitLines_end (t := text) (a := p + 1)
      (by omega) (by simpa using hplt)
    simpa using this
  unfold nmelAllLines
  rw [hS']
  rw [if_pos (by rw [List.getLast?_concat]), List.dropLast_concat]
  by_cases htr : (splitLines text).getLast? = some []
  · rw [if_pos htr]
    have hntr : nmelTotal text = (splitLines text).length - 1 := by
      unfold nmelTotal nmelAllLines
      rw [if_pos htr, List.length_dropLast]
    rw [take_dropLast_eq _ _ (by omega)]
  · rw [if_neg htr]

theorem takeGet {α : Type} :
    ∀ (l : List α) (nn j : Nat), j < nn → (l.take nn).get? j = l.get? j := by
  intro l
  induction l with
  | nil => intro nn j _; simp
  | cons a rest ih =>
    intro nn j hj
    cases nn with
    | zero => omega
    | succ nn' =>
      cases j with
      | zero => simp
      | succ j' => simpa using ih nn' j' (by omega)

theorem markersA_pairwise (tll : List Nat) (A : List (List Char)) :
    (nonEmptyNums tll 1 A ++ [A.length + 1]).Pairwise (· < ·) := by
  rw [List.pairwise_append]
  refine ⟨nonEmptyNums_pairwise tll A 1, by simp, ?_⟩
  intro a ha b hb
  simp only [List.mem_singleton] at hb
  subst hb
  have := nonEmptyNums_mem_bounds ha
  omega

theorem append_singleton_eq {NE xs ys : List Nat} {s q : Nat}
    (h : NE ++ [s] = xs ++ q :: ys) :
    (ys = [] ∧ q = s ∧ xs = NE) ∨ ∃ ys₀, ys = ys₀ ++ [s] ∧ NE = xs ++ q :: ys₀ := by
  rcases ys.eq_nil_or_concat with rfl | ⟨ys₀, a, rfl⟩
  · left
    have hq : some q = some s := by
      calc some q = (xs ++ [q]).getLast? := (List.getLast?_concat _).symm
        _ = (NE ++ [s]).getLast? := by rw [h]
        _ = some s := List.getLast?_concat _
    have hxs : xs = NE := by
      calc xs = (xs ++ [q]).dropLast := List.dropLast_concat.symm
        _ = (NE ++ [s]).dropLast := by rw [h]
        _ = NE := List.dropLast_concat
    exact ⟨rfl, Option.some_inj.mp hq, hxs⟩
  · right
    simp only [List.concat_eq_append] at h
    have h' : NE ++ [s] = (xs ++ q :: ys₀) ++ [a] := by
      rw [h]; simp
    have ha : some s = some a := by
      calc some s = (NE ++ [s]).getLast? := (List.getLast?_concat _).symm
        _ = ((xs ++ q :: ys₀) ++ [a]).getLast? := by rw [h']
        _ = some a := List.getLast?_concat _
    obtain rfl := Option.some_inj.mp ha
    have hNE : NE = xs ++ q :: ys₀ := by
      calc NE = (NE ++ [s]).dropLast := List.dropLast_concat.symm
        _ = ((xs ++ q :: ys₀) ++ [s]).dropLast := by rw [h']
        _ = xs ++ q :: ys₀ := List.dropLast_concat
    exact ⟨ys₀, by simp, hNE⟩

/-- After the fix for a violated run removes the `d` excess blank lines
`p+1 … p+d` of the run between markers `p` and `q`, the marker sequence of the
corrected lines is the old prefix up to `p`, then `q - d`, then the old
suffix shifted down by `d` (the sentinel included). -/
theorem markers_after_surgery {A : List (List Char)} {tll xs ys : List Nat}
    {q m d : Nat}
    (hms : nonEmptyNums tll 1 A ++ [A.length + 1] = xs ++ q :: ys)
    (hd : 1 ≤ d) (hq : q ≤ A.length + 1)
    (hpq : xs.getLastD 0 + m + 1 + d = q) :
    nonEmptyNums (shiftTll tll (xs.getLastD 0) d) 1
        (A.take (xs.getLastD 0) ++ A.drop (q - m - 1))
      ++ [(A.take (xs.getLastD 0) ++ A.drop (q - m - 1)).length + 1]
      = xs ++ (q - d) :: ys.map (fun x => x - d) := by
  set n := A.length with hn
  set p := xs.getLastD 0 with hp
  have hpn : p ≤ n := by omega
  have hqm1 : q - m - 1 ≤ n := by omega
  have hpqm : p ≤ q - m - 1 := by omega
  have hpw : (xs ++ q :: ys).Pairwise (· < ·) := by
    rw [← hms]; exact markersA_pairwise tll A
  rw [List.pairwise_append] at hpw
  obtain ⟨hpw_xs, hpw_qys, hcross⟩ := hpw
  rw [List.pairwise_cons] at hpw_qys
  obtain ⟨hq_lt_ys, hpw_ys⟩ := hpw_qys
  have hxs_le : ∀ x ∈ xs, x ≤ p := fun x hx => sorted_le_getLastD hpw_xs x hx
  have hlen_take : (A.take p).length = p := by rw [List.length_take]; omega
  have hlen' : (A.take p ++ A.drop (q - m - 1)).length = n - d := by
    rw [List.length_append, hlen_take, List.length_drop]; omega
  have hsplit1 : nonEmptyNums tll 1 A
      = nonEmptyNums tll 1 (A.take p) ++ nonEmptyNums tll (1 + p) (A.drop p) := by
    conv_lhs => rw [← List.take_append_drop p A]
    rw [nonEmptyNums_append, hlen_take]
  have hcongr1 : nonEmptyNums (shiftTll tll p d) 1 (A.take p)
      = nonEmptyNums tll 1 (A.take p) :=
    nonEmptyNums_congr _ _ fun x hx1 hx2 => by
      rw [hlen_take] at hx2
      exact shiftTll_contains_le (by omega)
  rcases append_singleton_eq hms with ⟨rfl, hqs, hxsNE⟩ | ⟨ys₀, rfl, hNE⟩
  · -- the run reaches the sentinel and the suffix is empty
    have heq1 : nonEmptyNums tll 1 (A.take p) ++ nonEmptyNums tll (1 + p) (A.drop p)
        = xs ++ [] := by
      rw [← hsplit1, ← hxsNE, List.append_nil]
    obtain ⟨hL, hR⟩ := append_split_unique (P := fun x => x ≤ p) heq1
      (fun x hx => by have := (nonEmptyNums_mem_bounds hx).2; rw [hlen_take] at this; omega)
      (fun x hx => by have := (nonEmptyNums_mem_bounds hx).1; omega)
      hxs_le
      (fun x hx => by simp at hx)
    have h2 : nonEmptyNums (shiftTll tll p d) (1 + p) (A.drop (q - m - 1)) = [] := by
      apply nonEmptyNums_eq_nil
      intro j line hj
      have hjlt : j < n - (q - m - 1) := by
        have hno : ¬ (A.drop (q - m - 1)).length ≤ j := fun hle => by
          rw [List.get?_eq_none.mpr hle] at hj
          exact absurd hj (by simp)
        rw [List.length_drop] at hno
        omega
      have hline : A.get? (q - m - 1 + j) = some line := by
        rw [← dropGet]; exact hj
      unfold isNonEmptyLine
      rw [shiftTll_contains_gt (by omega)]
      have harith : 1 + p + j + d = q - m + j := by omega
      rw [harith]
      by_contra hcon
      rw [Bool.not_eq_false] at hcon
      have hmem : q - m + j ∈ nonEmptyNums tll (1 + p) (A.drop p) := by
        apply mem_nonEmptyNums.mpr
        refine ⟨q - m - 1 + j - p, line, ?_, by omega, ?_⟩
        · rw [dropGet]
          have harith2 : p + (q - m - 1 + j - p) = q - m - 1 + j := by omega
          rw [harith2]
          exact hline
        · show isNonEmptyLine tll (q - m + j) line = true
          unfold isNonEmptyLine
          exact hcon
      rw [hR] at hmem
      simp at hmem
    rw [nonEmptyNums_append, hlen_take, hcongr1, h2, hL, List.append_nil, hlen']
    have harith3 : n - d + 1 = q - d := by omega
    rw [harith3]
    simp
  · -- interior suffix: the next marker `q` is a real line
    have hys₀_sub : ∀ y ∈ ys₀, y ∈ ys₀ ++ [n + 1] := fun y hy =>
      List.mem_append_left _ hy
    have heq1 : nonEmptyNums tll 1 (A.take p) ++ nonEmptyNums tll (1 + p) (A.drop p)
        = xs ++ (q :: ys₀) := by
      rw [← hsplit1, hNE]
    obtain ⟨hL, hR⟩ := append_split_unique (P := fun x => x ≤ p) heq1
      (fun x hx => by have := (nonEmptyNums_mem_bounds hx).2; rw [hlen_take] at this; omega)
      (fun x hx => by have := (nonEmptyNums_mem_bounds hx).1; omega)
      hxs_le
      (by
        intro x hx
        rcases List.mem_cons.mp hx with rfl | hx'
        · omega
        · have := hq_lt_ys x (hys₀_sub x hx')
          omega)
    have hqlen : q ≤ n := by
      -- q is a marker in the non-sentinel part
      have hqmem : q ∈ nonEmptyNums tll 1 A := by
        rw [hNE]
        exact List.mem_append_right _ (List.mem_cons_self _ _)
      have := nonEmptyNums_mem_bounds hqmem
      omega
    have hdropsplit : A.drop p = (A.drop p).take (q - 1 - p) ++ A.drop (q - 1) := by
      conv_lhs => rw [← List.take_append_drop (q - 1 - p) (A.drop p)]
      rw [List.drop_drop]
      congr 2
      omega
    have hlen₁ : ((A.drop p).take (q - 1 - p)).length = q - 1 - p := by
      rw [List.length_take, List.length_drop]
      omega
    have hRsplit : nonEmptyNums tll (1 + p) (A.drop p)
        = nonEmptyNums tll (1 + p) ((A.drop p).take (q - 1 - p))
          ++ nonEmptyNums tll q (A.drop (q - 1)) := by
      conv_lhs => rw [hdropsplit]
      rw [nonEmptyNums_append, hlen₁]
      have : 1 + p + (q - 1 - p) = q := by omega
      rw [this]
    have heq2 : nonEmptyNums tll (1 + p) ((A.drop p).take (q - 1 - p))
        ++ nonEmptyNums tll q (A.drop (q - 1)) = [] ++ (q :: ys₀) := by
      rw [← hRsplit, hR]
      rfl
    obtain ⟨hM5, hM4⟩ := append_split_unique (P := fun x => x < q) heq2
      (fun x hx => by
        have := (nonEmptyNums_mem_bounds hx).2
        rw [hlen₁] at this
        omega)
      (fun x hx => by have := (nonEmptyNums_mem_bounds hx).1; omega)
      (fun x hx => by simp at hx)
      (by
        intro x hx
        rcases List.mem_cons.mp hx with rfl | hx'
        · omega
        · have := hq_lt_ys x (hys₀_sub x hx')
          omega)
    have hkeepsplit : A.drop (q - m - 1)
        = (A.drop (q - m - 1)).take m ++ A.drop (q - 1) := by
      conv_lhs => rw [← List.take_append_drop m (A.drop (q - m - 1))]
      rw [List.drop_drop]
      congr 2
      omega
    have hlen₂ : ((A.drop (q - m - 1)).take m).length = m := by
      rw [List.length_take, List.length_drop]
      omega
    have hkeep : nonEmptyNums (shiftTll tll p d) (1 + p)
        ((A.drop (q - m - 1)).take m) = [] := by
      apply nonEmptyNums_eq_nil
      intro j line hj
      have hjm : j < m := by
        have hno : ¬ ((A.drop (q - m - 1)).take m).length ≤ j := fun hle => by
          rw [List.get?_eq_none.mpr hle] at hj
          exact absurd hj (by simp)
        rw [hlen₂] at hno
        omega
      have hline : A.get? (q - m - 1 + j) = some line := by
        rw [← dropGet, ← takeGet (A.drop (q - m - 1)) m j hjm]
        exact hj
      unfold isNonEmptyLine
      rw [shiftTll_contains_gt (by omega)]
      have harith : 1 + p + j + d = q - m + j := by omega
      rw [harith]
      by_contra hcon
      rw [Bool.not_eq_false] at hcon
      have hmem : q - m + j ∈ nonEmptyNums tll (1 + p)
          ((A.drop p).take (q - 1 - p)) := by
        apply mem_nonEmptyNums.mpr
        refine ⟨q - m - 1 + j - p, line, ?_, by omega, ?_⟩
        · rw [takeGet _ _ _ (by omega), dropGet]
          have harith2 : p + (q - m - 1 + j - p) = q - m - 1 + j := by omega
          rw [harith2]
          exact hline
        · show isNonEmptyLine tll (q - m + j) line = true
          unfold isNonEmptyLine
          exact hcon
      rw [hM5] at hmem
      simp at hmem
    have hshift : nonEmptyNums (shiftTll tll p d) (1 + p + m) (A.drop (q - 1))
        = (nonEmptyNums tll q (A.drop (q - 1))).map (fun x => x - d) := by
      rw [nonEmptyNums_shift (A.drop (q - 1)) (1 + p + m)
        (fun x hx => shiftTll_contains_gt (by omega))]
      have : 1 + p + m + d = q := by omega
      rw [this]
    have hsecond : nonEmptyNums (shiftTll tll p d) (1 + p) (A.drop (q - m - 1))
        = (q - d) :: ys₀.map (fun x => x - d) := by
      conv_lhs => rw [hkeepsplit]
      rw [nonEmptyNums_append, hlen₂, hkeep, hshift, hM4, List.nil_append]
      simp
    rw [nonEmptyNums_append, hlen_take, hcongr1, hL, hsecond, hlen']
    have harith3 : n - d + 1 = n + 1 - d := by omega
    rw [harith3]
    simp

/-- C6: applying a reported blank-line fix once and re-scanning the corrected
text under the same thresholds yields no diagnostic for that run: every
diagnostic of the re-scan starts at or before the run's previous marker line
`p = startLine - threshold - 1`, or strictly after the old diagnostic's start
line (the corrected run's would-be start), where the re-scan's
template-literal line set is the original one shifted over the removed lines.
In particular `"a\n\n\n\n\nb\n"` with `max = 1` yields one interior
diagnostic, its fix produces `"a\n\nb\n"`, and the re-scan is clean. -/
theorem blank_line_fix_rescan_clean :
    (∀ (text : List Char) (mI mE mB : Nat) (tll : List Nat) (r : NmelReport),
      r ∈ nmelScan text mI mE mB tll →
      ∀ rep ∈ nmelScan (removeRange text r.fixStart r.fixEnd) mI mE mB
          (shiftTll tll (r.startLine - thresholdFor mI mE mB r.messageId - 1)
            (r.endLine - r.startLine)),
        rep.startLine ≤ r.startLine - thresholdFor mI mE mB r.messageId - 1
        ∨ r.startLine < rep.startLine)
    ∧ nmelScan "a\n\n\n\n\nb\n".data 1 1 1 []
        = [⟨.consecutiveBlank, 3, 6, 2, 5⟩]
    ∧ removeRange "a\n\n\n\n\nb\n".data 2 5 = "a\n\nb\n".data
    ∧ nmelScan "a\n\nb\n".data 1 1 1 [] = [] := by
  refine ⟨?_, by decide, by decide, by decide⟩
  intro text mI mE mB tll r hr rep hrep
  obtain ⟨xs, q, ys, hms, hcond, hreq⟩ := nmelGo_mem hr
  set n := nmelTotal text with hn
  set p := xs.getLastD 0 with hp
  set m := runMaxAllowed n mB mI mE p q with hm
  have hd : 1 ≤ q - p - 1 - m := by omega
  set d := q - p - 1 - m with hd_def
  have hmsg : r.messageId = runClass n p q := by rw [hreq]
  have hstart : r.startLine = p + m + 1 := by rw [hreq]
  have hend : r.endLine = q := by rw [hreq]
  have hthr : thresholdFor mI mE mB r.messageId = m := by
    rw [hmsg, thresholdFor_runClass, hm]
  have hqmem : q ∈ nmelMarkers text tll := by
    rw [hms]
    exact List.mem_append_right _ (List.mem_cons_self _ _)
  have hq : q ≤ n + 1 := (nmelMarkers_bounds q hqmem).2
  have hpq : p + m + 1 + d = q := by omega
  have hpn : p ≤ n := by omega
  have hparam1 : r.startLine - thresholdFor mI mE mB r.messageId - 1 = p := by
    rw [hstart, hthr]
    omega
  have hparam2 : r.endLine - r.startLine = d := by
    rw [hend, hstart]
    omega
  rw [hparam1, hparam2] at hrep
  have hfixStart : r.fixStart = lineStartIdx (splitLines text) (p + 1) := by
    rw [hreq]
  have hfixEnd : r.fixEnd = if q - m ≤ n then lineStartIdx (splitLines text) (q - m)
      else text.length := by
    rw [hreq]
  have hA' : nmelAllLines (removeRange text r.fixStart r.fixEnd)
      = (nmelAllLines text).take p ++ (nmelAllLines text).drop (q - m - 1) := by
    rw [hfixStart, hfixEnd]
    by_cases hcase : q - m ≤ n
    · rw [if_pos hcase]
      exact nmelAllLines_removeRange (by omega) hcase
    · rw [if_neg hcase]
      rw [nmelAllLines_removeRange_end (by omega)]
      have hdropnil : (nmelAllLines text).drop (q - m - 1) = [] := by
        apply List.drop_eq_nil_of_le
        have hlenA : (nmelAllLines text).length = n := rfl
        omega
      rw [hdropnil, List.append_nil]
  have hmarkers' : nmelMarkers (removeRange text r.fixStart r.fixEnd)
      (shiftTll tll p d) = xs ++ (q - d) :: ys.map (fun x => x - d) := by
    unfold nmelMarkers nmelTotal
    rw [hA']
    exact markers_after_surgery hms hd hq hpq
  have hn' : nmelTotal (removeRange text r.fixStart r.fixEnd) = n - d := by
    unfold nmelTotal
    rw [hA']
    rw [List.length_append, List.length_take, List.length_drop]
    have hlenA : (nmelAllLines text).length = n := rfl
    omega
  have hpw : (xs ++ q :: ys).Pairwise (· < ·) := by
    rw [← hms]
    exact nmelMarkers_pairwise text tll
  rw [List.pairwise_append] at hpw
  obtain ⟨hpw_xs, hpw_qys, -⟩ := hpw
  rw [List.pairwise_cons] at hpw_qys
  obtain ⟨hq_lt_ys, hpw_ys⟩ := hpw_qys
  unfold nmelScan at hrep
  rw [hmarkers', hn', nmelGo_append] at hrep
  rcases List.mem_append.mp hrep with hpre | hsuf
  · obtain ⟨h1, h2⟩ := nmelGo_report_bounds hpre
    left
    rw [hparam1]
    have h3 := sorted_le_getLastD (d := 0) hpw_xs _ h2
    omega
  · have hsel : runMaxAllowed (n - d) mB mI mE p (q - d) = m := by
      by_cases hp0 : p = 0
      · rw [hm]
        unfold runMaxAllowed
        rw [if_pos hp0, if_pos hp0]
      · by_cases hq' : q = n + 1
        · have hqd : q - d = n - d + 1 := by omega
          rw [hm]
          unfold runMaxAllowed
          rw [if_neg hp0, if_neg hp0, if_pos hqd, if_pos hq']
        · have hqd : ¬ (q - d = n - d + 1) := by omega
          rw [hm]
          unfold runMaxAllowed
          rw [if_neg hp0, if_neg hp0, if_neg hqd, if_neg hq']
    simp only [nmelGo] at hsuf
    rw [hsel] at hsuf
    have hgap : ¬ ((q - d) - p - 1 > m) := by omega
    rw [if_neg hgap, List.nil_append] at hsuf
    have hchain : List.Chain (· ≤ ·) (q - d) (ys.map fun x => x - d) := by
      rw [List.chain_iff_pairwise]
      refine List.Pairwise.cons ?_ ?_
      · intro y hy
        obtain ⟨y₀, hy₀, rfl⟩ := List.mem_map.mp hy
        have := hq_lt_ys y₀ hy₀
        omega
      · rw [List.pairwise_map]
        refine hpw_ys.imp_of_mem ?_
        intro a b ha hb hab
        have h1 := hq_lt_ys _ ha
        have h2 := hq_lt_ys _ hb
        omega
    have hge := nmelGo_startLine_ge hchain rep hsuf
    right
    rw [hstart]
    omega

theorem blank_line_fix_rescan_clean_witness :
    ((⟨.consecutiveBlank, 3, 6, 2, 5⟩ : NmelReport)
        ∈ nmelScan "a\n\n\n\n\nb\n".data 1 1 1 [])
    ∧ ∀ rep ∈ nmelScan (removeRange "a\n\n\n\n\nb\n".data 2 5) 1 1 1
          (shiftTll [] 1 3),
        rep.startLine ≤ 1 ∨ 3 < rep.startLine :=
  ⟨by decide,
   blank_line_fix_rescan_clean.1 "a\n\n\n\n\nb\n".data 1 1 1 []
     (⟨.consecutiveBlank, 3, 6, 2, 5⟩ : NmelReport) (by decide)⟩
